import Mathlib

/-! Cryptocurrency wallet design: scenario space, wallet predicate, genetic search.

A shallow embedding of `Utils.cpp` (Scenario, Wallet) and `GeneticAlgorithm.h`.

* `vector<KeyState>` and `vector<vector<bool>>` are lists, indexed from 0.
* `float` scores and probabilities are exact rationals in `probability`,
  `successProbability` and `successHeuristic`; `probabilityF32` and
  `successProbabilityF32` compute the same scores in binary32 arithmetic, rounding
  after every multiplication and addition as the program does.
* Random draws (`uniformDistribution`, `bernoulliDistribution`, `shuffle`) are
  arguments of the embedded functions: the caller supplies the value drawn.
* Loops whose termination is not structural (the `do ... while` of
  `successProbability`, the `while` of `run`) carry a fuel argument and return `none`
  when it runs out.
* Dereferencing a null pointer is the result `none`.
-/

namespace WalletDesign

/-! ## Data model -/

/-- The enumeration `KeyState` of `Utils.h`: SAFE = 0, LOSS = 1, LEAK = 2, THEFT = 3. -/
inductive KeyState where
  | SAFE
  | LOSS
  | LEAK
  | THEFT
  deriving DecidableEq, Repr, Fintype

/-- The integer value of a `KeyState` (implicit conversion of the enum to `int`). -/
def KeyState.toNat : KeyState → Nat
  | .SAFE => 0
  | .LOSS => 1
  | .LEAK => 2
  | .THEFT => 3

/-- The cast `KeyState(v)`; the source only ever casts a value `v % 4`. -/
def KeyState.cast : Nat → KeyState
  | 0 => .SAFE
  | 1 => .LOSS
  | 2 => .LEAK
  | _ => .THEFT

/-- The member `keyStates` of a `Scenario`. -/
abbrev Scenario := List KeyState

/-- The member `dnf` of a `Wallet`: a list of clauses, each a list of key bits. -/
abbrev Wallet := List (List Bool)

/-! ## Scenario -/

/-- The constructor `Scenario::Scenario()`: `numberOfKeys` keys, all SAFE. -/
def Scenario.init (numberOfKeys : Nat) : Scenario :=
  List.replicate numberOfKeys KeyState.SAFE

/-- The `for` loop of `Scenario::nextScenario`. The first argument is `i + 1`
(so `0` stands for `i = -1`, where the loop ends); the second is `carry`. -/
def nextScenarioLoop : Nat → Nat → Scenario → Scenario × Nat
  | 0, carry, keyStates => (keyStates, carry)
  | i + 1, carry, keyStates =>
    if carry = 0 then (keyStates, carry)
    else
      let sum := (keyStates.getD i KeyState.SAFE).toNat + carry
      nextScenarioLoop i (sum / 4) (keyStates.set i (KeyState.cast (sum % 4)))

/-- The method `Scenario::nextScenario`: the state it leaves and the value it returns. -/
def nextScenario (keyStates : Scenario) : Scenario × Bool :=
  let r := nextScenarioLoop keyStates.length 1 keyStates
  (r.1, r.2 == 0)

/-- The `for` loop of `Scenario::randomize`. The first argument is `i + 1`; the
second is `stateNumber`. Writing at `i = -1` is out of range: `none`. -/
def randomizeLoop : Nat → Nat → Scenario → Option Scenario
  | pos, stateNumber, keyStates =>
    if stateNumber = 0 then some keyStates
    else
      match pos with
      | 0 => none
      | i + 1 =>
        randomizeLoop i (stateNumber / 4) (keyStates.set i (KeyState.cast (stateNumber % 4)))

/-- The body of the method `Scenario::randomize` once the integer `stateNumber` has
been drawn: the decoding loop on the scenario's keys. Which integers the call
`uniformDistribution(0, scenarioSpaceSize - 1)` can draw is `scenarioDrawBound`;
`randomizeIn` is the method with that call. -/
def randomize (keyStates : Scenario) (stateNumber : Nat) : Option Scenario :=
  randomizeLoop keyStates.length stateNumber keyStates

/-- The method `Scenario::probability`: `prob` starts at 1 and is multiplied by
`probabilities[i]` for each key state `i`. -/
def probability (probabilities : List ℚ) (keyStates : Scenario) : ℚ :=
  keyStates.foldl (fun prob i => prob * probabilities.getD i.toNat 0) 1

/-- The method `Scenario::availability`: the OWNER row and the ADVERSARY row. -/
def availability (keyStates : Scenario) : List Bool × List Bool :=
  (keyStates.map (fun s => !(s == KeyState.LOSS || s == KeyState.THEFT)),
   keyStates.map (fun s => s == KeyState.LEAK || s == KeyState.THEFT))

/-! ## Wallet -/

/-- The inner `for` loop of `Wallet::satisfiesWallet` over `key`, with its `break`:
the value of `satisfied` after the loop. The first argument counts the keys still
to visit (`combination.size() - key`). -/
def clauseLoop (combination availability : List Bool) : Nat → Nat → Bool
  | 0, _ => true
  | todo + 1, key =>
    if combination.getD key false && !availability.getD key false then false
    else clauseLoop combination availability todo (key + 1)

/-- The method `Wallet::satisfiesWallet`: the first satisfied clause returns true. -/
def satisfiesWallet : Wallet → List Bool → Bool
  | [], _ => false
  | combination :: rest, availability =>
    if clauseLoop combination availability combination.length 0 then true
    else satisfiesWallet rest availability

/-- The method `Wallet::walletSuccess`. -/
def walletSuccess (dnf : Wallet) (scenario : Scenario) : Bool :=
  let av := availability scenario
  satisfiesWallet dnf av.1 && !satisfiesWallet dnf av.2

/-- The loop of `Wallet::perturb` over the bits of the chosen clause: the bit at
position `j` becomes `1 - i` when the `j`-th Bernoulli draw is true. -/
def perturbBits (bernoulli : Nat → Bool) : List Bool → Nat → List Bool
  | [], _ => []
  | i :: rest, j => (if bernoulli j then !i else i) :: perturbBits bernoulli rest (j + 1)

/-- The method `Wallet::perturb`, given the clause index `randNum` drawn by
`uniformDistribution(0, dnf.size() - 1)` and the Bernoulli draws in order. -/
def perturb (dnf : Wallet) (randNum : Nat) (bernoulli : Nat → Bool) : Wallet :=
  dnf.set randNum (perturbBits bernoulli (dnf.getD randNum []) 0)

/-- The `do ... while (scenario.nextScenario())` loop of `Wallet::successProbability`.
Each unit of fuel pays for one execution of the body. -/
def successProbabilityLoop (probabilities : List ℚ) (dnf : Wallet) :
    Nat → ℚ → Scenario → Option ℚ
  | 0, _, _ => none
  | fuel + 1, score, scenario =>
    let score2 := if walletSuccess dnf scenario then score + probability probabilities scenario
      else score
    let r := nextScenario scenario
    if r.2 then successProbabilityLoop probabilities dnf fuel score2 r.1 else some score2

/-- The method `Wallet::successProbability` in a context with `numberOfKeys` keys. -/
def successProbability (numberOfKeys : Nat) (probabilities : List ℚ) (dnf : Wallet)
    (fuel : Nat) : Option ℚ :=
  successProbabilityLoop probabilities dnf fuel 0 (Scenario.init numberOfKeys)

/-- The scenarios visited by `do { visit } while (scenario.nextScenario())`, the
enumeration loop of `successProbability` with the body replaced by recording the
scenario. -/
def enumeration : Nat → Scenario → Option (List Scenario)
  | 0, _ => none
  | fuel + 1, scenario =>
    let r := nextScenario scenario
    if r.2 then (enumeration fuel r.1).map (fun rest => scenario :: rest) else some [scenario]

/-- The state of a scenario after `k` calls of `nextScenario`. -/
def stateAfter (scenario : Scenario) : Nat → Scenario
  | 0 => scenario
  | k + 1 => (nextScenario (stateAfter scenario k)).1

/-- The value returned by call number `k + 1` of `nextScenario`. -/
def returnedAt (scenario : Scenario) (k : Nat) : Bool :=
  (nextScenario (stateAfter scenario k)).2

/-- The key states read as a base-4 number, first key most significant. -/
def value (keyStates : Scenario) : Nat :=
  keyStates.foldl (fun acc s => 4 * acc + s.toNat) 0

/-- The `n`-digit base-4 representation of `k`, most significant digit first. -/
def base4 : Nat → Nat → Scenario
  | 0, _ => []
  | n + 1, k => base4 n (k / 4) ++ [KeyState.cast (k % 4)]

/-! ## Genetic algorithm -/

/-- The loop of `GeneticAlgorithm::getFittest`; a null pointer is `none`. -/
def getFittestLoop {C : Type} (fitness : C → ℚ) : List (Option C) → ℚ → Option C → Option C
  | [], _, fittestChromosome => fittestChromosome
  | w :: rest, bestScore, fittestChromosome =>
    let f := match w with
      | some c => fitness c
      | none => 0
    if f > bestScore then getFittestLoop fitness rest f w
    else getFittestLoop fitness rest bestScore fittestChromosome

/-- The method `GeneticAlgorithm::getFittest`. -/
def getFittest {C : Type} (fitness : C → ℚ) (group : List (Option C)) : Option C :=
  getFittestLoop fitness group 0 none

/-- The method `GeneticAlgorithm::selectUAR`, given the shuffled index vector `nums`. -/
def selectUAR {C : Type} (population : List (Option C)) (nums : List Nat) (size : Nat) :
    List (Option C) :=
  (nums.take size).map (fun i => population.getD i none)

/-- The constructor parameters of `GeneticAlgorithm`. -/
structure Config where
  populationSize : Nat
  selectionSize : Nat
  iterationsToHalt : Nat
  perturbProbability : ℚ

/-- The variables of `GeneticAlgorithm::run` that live across generations. -/
structure RunState (C : Type) where
  population : List (Option C)
  bestChromosome : C
  best_score : ℚ
  delta : Nat

/-- Slot `i` (for `i >= 1`) of `selected` in `run`: the fittest of a tournament,
copied and perturbed, or null when the tournament has no fittest. -/
def selectedSlot {C : Type} (cfg : Config) (fitness : C → ℚ) (perturbFn : Nat → C → ℚ → C)
    (shuffle : Nat → List Nat) (population : List (Option C)) (i : Nat) : Option C :=
  match getFittest fitness (selectUAR population (shuffle i) cfg.selectionSize) with
  | some fit => some (perturbFn i fit cfg.perturbProbability)
  | none => none

/-- One iteration of the `while` loop of `GeneticAlgorithm::run`. `perturbFn i` and
`shuffle i` are the random perturbation and the shuffled indices used for slot `i`.
The result is `none` when the iteration dereferences a null pointer. -/
def generation {C : Type} (cfg : Config) (fitness : C → ℚ) (perturbFn : Nat → C → ℚ → C)
    (shuffle : Nat → List Nat) (st : RunState C) : Option (RunState C) :=
  let fittest := getFittest fitness st.population
  let score : ℚ := match fittest with
    | some c => fitness c
    | none => 0
  let tracked : Option (C × ℚ × Nat) :=
    if score > st.best_score then fittest.map (fun c => (c, score, 0))
    else some (st.bestChromosome, st.best_score, st.delta + 1)
  match tracked with
  | none => none
  | some (best, bestScore, delta) =>
    match getFittest fitness st.population with
    | none => none
    | some elite =>
      some { population := some elite ::
               (List.range (cfg.populationSize - 1)).map
                 (fun j => selectedSlot cfg fitness perturbFn shuffle st.population (j + 1))
             bestChromosome := best
             best_score := bestScore
             delta := delta }

/-! ## Wallet construction and the sampled score -/

/-- The bound `maxWalletSize` of `Wallet::Wallet()`: `(numberOfKeys * 3) / 2` in
integer division. -/
def maxWalletSize (numberOfKeys : Nat) : Nat :=
  (numberOfKeys * 3) / 2

/-- The constructor `Wallet::Wallet()`, given the clause count `walletSize` drawn by
`uniformDistribution(1, maxWalletSize)` and the fair Bernoulli draws: `bernoulli r j`
is the draw for bit `j` of clause `r`. -/
def Wallet.construct (numberOfKeys walletSize : Nat) (bernoulli : Nat → Nat → Bool) : Wallet :=
  (List.range walletSize).map (fun r => (List.range numberOfKeys).map (fun j => bernoulli r j))

/-- The upper bound `context->scenarioSpaceSize - 1` that `Scenario::randomize` passes
to `uniformDistribution(int a, int b)`: the double `4 ^ numberOfKeys - 1` converted to
`int`. The conversion is defined only when the value fits an `int`, that is up to
`2147483647` (15 keys); beyond that the call has no defined draw: `none`. -/
def scenarioDrawBound (numberOfKeys : Nat) : Option Nat :=
  if 4 ^ numberOfKeys - 1 ≤ 2147483647 then some (4 ^ numberOfKeys - 1) else none

/-- The method `Scenario::randomize` in a context with `numberOfKeys` keys, given the
integer `stateNumber` drawn: the draw has to be one that
`uniformDistribution(0, scenarioSpaceSize - 1)` can return, otherwise `none`. -/
def randomizeIn (numberOfKeys : Nat) (keyStates : Scenario) (stateNumber : Nat) :
    Option Scenario :=
  match scenarioDrawBound numberOfKeys with
  | none => none
  | some bound => if stateNumber ≤ bound then randomize keyStates stateNumber else none

/-- The `for` loop of `Wallet::successHeuristic`. The third argument counts the
iterations still to run, the fourth is `i`; `draws i` is the integer drawn by the
call of `randomize` in iteration `i`. The scenario is the one object declared before
the loop, so each call of `randomize` starts from the state the previous one left. -/
def successHeuristicLoop (numberOfKeys : Nat) (probabilities : List ℚ) (dnf : Wallet)
    (draws : Nat → Nat) : Nat → Nat → ℚ → Scenario → Option ℚ
  | 0, _, score, _ => some score
  | todo + 1, i, score, scenario =>
    match randomizeIn numberOfKeys scenario (draws i) with
    | none => none
    | some drawn =>
      successHeuristicLoop numberOfKeys probabilities dnf draws todo (i + 1)
        (if walletSuccess dnf drawn then score + probability probabilities drawn else score)
        drawn

/-- The method `Wallet::successHeuristic` in a context with `numberOfKeys` keys and
`randomScenarioSampleSize = sampleSize`. -/
def successHeuristic (numberOfKeys : Nat) (probabilities : List ℚ) (dnf : Wallet)
    (sampleSize : Nat) (draws : Nat → Nat) : Option ℚ :=
  successHeuristicLoop numberOfKeys probabilities dnf draws sampleSize 0 0
    (Scenario.init numberOfKeys)

/-! ## The search loop -/

/-- The local variables of `run` before the first generation: `delta = 0` and
`best_score = 0`; the population and `bestChromosome` come from the constructor. -/
def RunState.init {C : Type} (population : List (Option C)) (bestChromosome : C) : RunState C :=
  RunState.mk population bestChromosome 0 0

/-- The `while (delta < iterationsToHalt)` loop of `GeneticAlgorithm::run` for a
fitness that is a function of the chromosome. `g` numbers the generation;
`perturbFn g` and `shuffle g` are its random draws. Each unit of fuel pays for one
generation; the result is `none` when the fuel runs out or a generation dereferences
a null pointer. -/
def runLoop {C : Type} (cfg : Config) (fitness : C → ℚ) (perturbFn : Nat → Nat → C → ℚ → C)
    (shuffle : Nat → Nat → List Nat) : Nat → Nat → RunState C → Option (RunState C)
  | fuel, g, st =>
    if st.delta < cfg.iterationsToHalt then
      match fuel with
      | 0 => none
      | fuel2 + 1 =>
        match generation cfg fitness (perturbFn g) (shuffle g) st with
        | none => none
        | some st2 => runLoop cfg fitness perturbFn shuffle fuel2 (g + 1) st2
    else some st

/-- The method `GeneticAlgorithm::run`: the state in which the loop ends. -/
def run {C : Type} (cfg : Config) (fitness : C → ℚ) (perturbFn : Nat → Nat → C → ℚ → C)
    (shuffle : Nat → Nat → List Nat) (population : List (Option C)) (bestChromosome : C)
    (fuel : Nat) : Option (RunState C) :=
  runLoop cfg fitness perturbFn shuffle fuel 0 (RunState.init population bestChromosome)

/-- The method `GeneticAlgorithm::getSolution` on the state `run` ended in. -/
def getSolution {C : Type} (st : RunState C) : C :=
  st.bestChromosome

/-- The variables of `run` after `k` iterations of the loop body from the initial
state, whether or not the loop condition would have let the body run. -/
def afterGenerations {C : Type} (cfg : Config) (fitness : C → ℚ)
    (perturbFn : Nat → Nat → C → ℚ → C) (shuffle : Nat → Nat → List Nat)
    (population : List (Option C)) (bestChromosome : C) : Nat → Option (RunState C)
  | 0 => some (RunState.init population bestChromosome)
  | k + 1 =>
    match afterGenerations cfg fitness perturbFn shuffle population bestChromosome k with
    | none => none
    | some st => generation cfg fitness (perturbFn k) (shuffle k) st

/-! ### A fitness that is not a function of the chromosome

`successHeuristic` draws random scenarios, so two calls on one wallet may differ. In
the definitions below every call of `fitness` has its own number: `fitness j c` is
what the call for slot `j` returns on chromosome `c`. -/

/-- The loop of `getFittest` when the call for slot `j` returns `fitness j c`. -/
def getFittestLoopAt {C : Type} (fitness : Nat → C → ℚ) :
    List (Option C) → Nat → ℚ → Option C → Option C
  | [], _, _, fittestChromosome => fittestChromosome
  | w :: rest, j, bestScore, fittestChromosome =>
    let f := match w with
      | some c => fitness j c
      | none => 0
    if f > bestScore then getFittestLoopAt fitness rest (j + 1) f w
    else getFittestLoopAt fitness rest (j + 1) bestScore fittestChromosome

/-- The method `getFittest` when the call for slot `j` returns `fitness j c`. -/
def getFittestAt {C : Type} (fitness : Nat → C → ℚ) (group : List (Option C)) : Option C :=
  getFittestLoopAt fitness group 0 0 none

/-- Slot `i` of `selected`, as `selectedSlot`, with numbered fitness calls. -/
def selectedSlotAt {C : Type} (cfg : Config) (fitness : Nat → C → ℚ)
    (perturbFn : Nat → C → ℚ → C) (shuffle : Nat → List Nat) (population : List (Option C))
    (i : Nat) : Option C :=
  match getFittestAt fitness (selectUAR population (shuffle i) cfg.selectionSize) with
  | some fit => some (perturbFn i fit cfg.perturbProbability)
  | none => none

/-- One iteration of the loop of `run`, as `generation`, with numbered fitness calls:
`fitness 0` serves the lookup `getFittest(population)` that opens the generation,
`fitness 1 0` the call `fitness(fittest)` that gives `score`, `fitness 2` the lookup
that fills slot 0, and `fitness (i + 2)` the tournament of slot `i >= 1`. -/
def generationAt {C : Type} (cfg : Config) (fitness : Nat → Nat → C → ℚ)
    (perturbFn : Nat → C → ℚ → C) (shuffle : Nat → List Nat) (st : RunState C) :
    Option (RunState C) :=
  let fittest := getFittestAt (fitness 0) st.population
  let score : ℚ := match fittest with
    | some c => fitness 1 0 c
    | none => 0
  let tracked : Option (C × ℚ × Nat) :=
    if score > st.best_score then fittest.map (fun c => (c, score, 0))
    else some (st.bestChromosome, st.best_score, st.delta + 1)
  match tracked with
  | none => none
  | some (best, bestScore, delta) =>
    match getFittestAt (fitness 2) st.population with
    | none => none
    | some elite =>
      some { population := some elite ::
               (List.range (cfg.populationSize - 1)).map
                 (fun j => selectedSlotAt cfg (fitness (j + 3)) perturbFn shuffle
                   st.population (j + 1))
             bestChromosome := best
             best_score := bestScore
             delta := delta }

/-- The score `run` compares with `best_score` in a generation: `fitness(fittest)`,
or 0 when the population has no fittest. -/
def generationScoreAt {C : Type} (fitness : Nat → Nat → C → ℚ) (st : RunState C) : ℚ :=
  match getFittestAt (fitness 0) st.population with
  | some c => fitness 1 0 c
  | none => 0

/-! ## The scores in binary32 arithmetic

The program keeps probabilities and scores in `float` (IEEE binary32) and rounds after
every operation. A non-negative finite `float` is represented by a natural number of
units of `2 ^ (-149)`, the spacing of the smallest binary32 values, so that every such
`float` is one such number. Overflow to infinity (from `2 ^ 128`) is outside the model:
the scores stay at most about 1. -/

/-- The number of binary digits of `a` (0 for 0); the first argument bounds the
number of digits looked at. -/
def bitLength : Nat → Nat → Nat
  | 0, _ => 0
  | fuel + 1, a => if a = 0 then 0 else bitLength fuel (a / 2) + 1

/-- The binary32 value nearest to the real number `a / 2 ^ s` (for `149 <= s`), ties
going to the even significand, in units of `2 ^ (-149)`: 24 significant binary digits
are kept, and nothing finer than `2 ^ (-149)`. -/
def roundF32 (a s : Nat) : Nat :=
  let ulp := 2 ^ (max (bitLength 600 a - 24) (s - 149))
  let q := a / ulp
  let r := a % ulp
  let q2 := if ulp < 2 * r || (2 * r == ulp && q % 2 == 1) then q + 1 else q
  q2 * ulp / 2 ^ (s - 149)

/-- The `float` 1. -/
def f32One : Nat :=
  2 ^ 149

/-- The product of two `float`s, rounded to `float`. -/
def mulF32 (x y : Nat) : Nat :=
  roundF32 (x * y) 298

/-- The sum of two `float`s, rounded to `float`. -/
def addF32 (x y : Nat) : Nat :=
  roundF32 (x + y) 149

/-- The real number a `float` stands for. -/
def f32Value (x : Nat) : ℚ :=
  (x : ℚ) / 2 ^ 149

/-- The method `Scenario::probability` in `float`: `prob *= probabilities[i]` rounds
after every multiplication. -/
def probabilityF32 (probabilities : List Nat) (keyStates : Scenario) : Nat :=
  keyStates.foldl (fun prob i => mulF32 prob (probabilities.getD i.toNat 0)) f32One

/-- The loop of `Wallet::successProbability` in `float`: `score += ...` rounds after
every addition. -/
def successProbabilityLoopF32 (probabilities : List Nat) (dnf : Wallet) :
    Nat → Nat → Scenario → Option Nat
  | 0, _, _ => none
  | fuel + 1, score, scenario =>
    let score2 := if walletSuccess dnf scenario
      then addF32 score (probabilityF32 probabilities scenario) else score
    let r := nextScenario scenario
    if r.2 then successProbabilityLoopF32 probabilities dnf fuel score2 r.1 else some score2

/-- The method `Wallet::successProbability` in `float`. -/
def successProbabilityF32 (numberOfKeys : Nat) (probabilities : List Nat) (dnf : Wallet)
    (fuel : Nat) : Option Nat :=
  successProbabilityLoopF32 probabilities dnf fuel 0 (Scenario.init numberOfKeys)

/-! ## The scenario counter -/

theorem toNat_lt_four (s : KeyState) : s.toNat < 4 := by
  cases s <;> decide

theorem toNat_cast (v : Nat) (h : v < 4) : (KeyState.cast v).toNat = v := by
  interval_cases v <;> rfl

theorem cast_toNat (s : KeyState) : KeyState.cast s.toNat = s := by
  cases s <;> rfl

theorem value_nil : value [] = 0 := rfl

theorem value_concat (l : Scenario) (d : KeyState) :
    value (l ++ [d]) = 4 * value l + d.toNat := by
  simp [value, List.foldl_append]

theorem value_lt (l : Scenario) : value l < 4 ^ l.length := by
  induction l using List.reverseRecOn with
  | nil => simp [value]
  | append_singleton l d ih =>
    have hd := toNat_lt_four d
    rw [value_concat, List.length_append, List.length_singleton, pow_succ]
    omega

theorem exists_concat_of_length (n : Nat) (l : Scenario) (h : l.length = n + 1) :
    ∃ (l0 : Scenario) (d : KeyState), l = l0 ++ [d] ∧ l0.length = n := by
  rcases List.eq_nil_or_concat l with h0 | ⟨l0, d, h1⟩
  · rw [h0] at h; simp at h
  · rw [List.concat_eq_append] at h1
    refine ⟨l0, d, h1, ?_⟩
    rw [h1] at h
    simpa using h

theorem value_injective : ∀ (n : Nat) (a b : Scenario),
    a.length = n → b.length = n → value a = value b → a = b := by
  intro n
  induction n with
  | zero =>
    intro a b ha hb _
    rw [List.length_eq_zero] at ha hb
    rw [ha, hb]
  | succ n ih =>
    intro a b ha hb hv
    obtain ⟨a0, x, rfl, ha0⟩ := exists_concat_of_length n a ha
    obtain ⟨b0, y, rfl, hb0⟩ := exists_concat_of_length n b hb
    rw [value_concat, value_concat] at hv
    have hx := toNat_lt_four x
    have hy := toNat_lt_four y
    have h1 : value a0 = value b0 := by omega
    have h2 : x.toNat = y.toNat := by omega
    have h3 : x = y := by rw [← cast_toNat x, ← cast_toNat y, h2]
    rw [ih a0 b0 ha0 hb0 h1, h3]

theorem value_init (n : Nat) : value (Scenario.init n) = 0 := by
  induction n with
  | zero => rfl
  | succ n ih =>
    have h : Scenario.init (n + 1) = Scenario.init n ++ [KeyState.SAFE] := by
      simp [Scenario.init, List.replicate_succ']
    rw [h, value_concat, ih]
    rfl

theorem length_init (n : Nat) : (Scenario.init n).length = n := by
  simp [Scenario.init]

/-- The carry loop on the first `k` keys adds `carry` to the number they spell and
leaves the other keys alone. -/
theorem nextScenarioLoop_spec : ∀ (k : Nat) (pre suf : Scenario) (carry : Nat),
    pre.length = k →
    ∃ (pre2 : Scenario) (c : Nat), nextScenarioLoop k carry (pre ++ suf) = (pre2 ++ suf, c) ∧
      pre2.length = k ∧ value pre2 + c * 4 ^ k = value pre + carry := by
  intro k
  induction k with
  | zero =>
    intro pre suf carry hlen
    rw [List.length_eq_zero] at hlen
    subst hlen
    exact ⟨[], carry, rfl, rfl, by simp [value]⟩
  | succ k ih =>
    intro pre suf carry hlen
    obtain ⟨p0, d, rfl, hp0⟩ := exists_concat_of_length k pre hlen
    by_cases hc : carry = 0
    · refine ⟨p0 ++ [d], 0, ?_, hlen, by simp [hc]⟩
      simp [nextScenarioLoop, hc]
    · have hget : ((p0 ++ [d]) ++ suf).getD k KeyState.SAFE = d := by
        rw [List.append_assoc, List.getD_eq_getElem?_getD, ← hp0,
          List.getElem?_append_right (Nat.le_refl _)]
        simp
      have hset : ∀ x, ((p0 ++ [d]) ++ suf).set k x = p0 ++ (x :: suf) := by
        intro x
        rw [List.append_assoc, ← hp0]
        simp
      obtain ⟨q, c, hq, hqlen, hqv⟩ :=
        ih p0 (KeyState.cast ((d.toNat + carry) % 4) :: suf) ((d.toNat + carry) / 4) hp0
      refine ⟨q ++ [KeyState.cast ((d.toNat + carry) % 4)], c, ?_, by simp [hqlen], ?_⟩
      · rw [nextScenarioLoop, if_neg hc]
        simp only [hget, hset]
        rw [hq]
        simp
      · rw [value_concat, value_concat, toNat_cast _ (Nat.mod_lt _ (by decide)), pow_succ]
        have := Nat.div_add_mod (d.toNat + carry) 4
        nlinarith

/-- One call of `nextScenario` keeps the number of keys, adds one modulo `4 ^ n` to the
number the keys spell, and returns whether the sum stayed below `4 ^ n`. -/
theorem nextScenario_spec (s : Scenario) :
    (nextScenario s).1.length = s.length ∧
    value (nextScenario s).1 = (value s + 1) % 4 ^ s.length ∧
    (nextScenario s).2 = decide (value s + 1 < 4 ^ s.length) := by
  obtain ⟨q, c, hq, hqlen, hqv⟩ := nextScenarioLoop_spec s.length s [] 1 rfl
  rw [List.append_nil] at hq
  have hlt : value q < 4 ^ s.length := hqlen ▸ value_lt q
  have hs := value_lt s
  have hc : c = 0 ∨ c = 1 := by
    rcases c with _ | _ | c
    · exact Or.inl rfl
    · exact Or.inr rfl
    · exfalso
      have : (c + 1 + 1) * 4 ^ s.length = c * 4 ^ s.length + 2 * 4 ^ s.length := by ring
      have h0 : 0 ≤ c * 4 ^ s.length := Nat.zero_le _
      omega
  simp only [nextScenario, hq, List.append_nil]
  refine ⟨hqlen, ?_, ?_⟩
  · rcases hc with rfl | rfl
    · rw [Nat.mod_eq_of_lt (by omega)]; omega
    · have : value s + 1 = 4 ^ s.length := by omega
      rw [this, Nat.mod_self]; omega
  · rcases hc with rfl | rfl
    · have : value s + 1 < 4 ^ s.length := by omega
      simp [this]
    · have : ¬ (value s + 1 < 4 ^ s.length) := by omega
      simp [this]

theorem stateAfter_spec (n : Nat) : ∀ k : Nat,
    (stateAfter (Scenario.init n) k).length = n ∧
    value (stateAfter (Scenario.init n) k) = k % 4 ^ n := by
  intro k
  induction k with
  | zero =>
    exact ⟨length_init n, by rw [stateAfter, value_init, Nat.zero_mod]⟩
  | succ k ih =>
    obtain ⟨h1, h2, _⟩ := nextScenario_spec (stateAfter (Scenario.init n) k)
    refine ⟨by rw [stateAfter, h1, ih.1], ?_⟩
    rw [stateAfter, h2, ih.1, ih.2, Nat.mod_add_mod]

theorem stateAfter_next (s : Scenario) : ∀ k : Nat,
    stateAfter s (k + 1) = stateAfter (nextScenario s).1 k := by
  intro k
  induction k with
  | zero => rfl
  | succ k ih => rw [stateAfter, ih, stateAfter]

/-- With enough fuel the enumeration loop returns the successive states of the
counter, from the starting state up to the last state before the wrap. -/
theorem enumeration_eq : ∀ (fuel : Nat) (s : Scenario), 4 ^ s.length - value s ≤ fuel →
    enumeration fuel s = some ((List.range (4 ^ s.length - value s)).map (stateAfter s)) := by
  intro fuel
  induction fuel with
  | zero =>
    intro s h
    have := value_lt s
    omega
  | succ fuel ih =>
    intro s h
    obtain ⟨h1, h2, h3⟩ := nextScenario_spec s
    have hs := value_lt s
    by_cases hlt : value s + 1 < 4 ^ s.length
    · have hv : value (nextScenario s).1 = value s + 1 := by
        rw [h2, Nat.mod_eq_of_lt hlt]
      have hr : (nextScenario s).2 = true := by rw [h3]; simp [hlt]
      have hfuel : 4 ^ (nextScenario s).1.length - value (nextScenario s).1 ≤ fuel := by
        rw [h1, hv]; omega
      have hcount : 4 ^ s.length - value s = (4 ^ s.length - (value s + 1)) + 1 := by omega
      rw [enumeration]
      simp only [hr, if_true]
      rw [ih _ hfuel, h1, hv, hcount, List.range_succ_eq_map]
      simp only [Option.map_some', List.map_cons, List.map_map]
      congr 2
      apply List.map_congr_left
      intro k _
      exact (stateAfter_next s k).symm
    · have hr : (nextScenario s).2 = false := by rw [h3]; simp [hlt]
      have hcount : 4 ^ s.length - value s = 1 := by omega
      rw [enumeration]
      simp only [hr, hcount]
      rfl

theorem enumeration_init (n fuel : Nat) (h : 4 ^ n ≤ fuel) :
    enumeration fuel (Scenario.init n) =
      some ((List.range (4 ^ n)).map (stateAfter (Scenario.init n))) := by
  have := enumeration_eq fuel (Scenario.init n) (by rw [length_init, value_init]; omega)
  rw [length_init, value_init] at this
  exact this

theorem stateAfter_injOn (n i j : Nat) (hi : i < 4 ^ n) (hj : j < 4 ^ n)
    (h : stateAfter (Scenario.init n) i = stateAfter (Scenario.init n) j) : i = j := by
  have h1 := (stateAfter_spec n i).2
  have h2 := (stateAfter_spec n j).2
  rw [h, h2, Nat.mod_eq_of_lt hi, Nat.mod_eq_of_lt hj] at h1
  exact h1.symm

theorem stateAfter_surj (n : Nat) (s : Scenario) (hs : s.length = n) :
    ∃ k, k < 4 ^ n ∧ stateAfter (Scenario.init n) k = s := by
  have hlt : value s < 4 ^ n := hs ▸ value_lt s
  refine ⟨value s, hlt, ?_⟩
  obtain ⟨h1, h2⟩ := stateAfter_spec n (value s)
  exact value_injective n _ _ h1 hs (by rw [h2, Nat.mod_eq_of_lt hlt])

theorem nodup_states (n : Nat) :
    ((List.range (4 ^ n)).map (stateAfter (Scenario.init n))).Nodup := by
  apply List.Nodup.map_on _ (List.nodup_range _)
  intro i hi j hj h
  exact stateAfter_injOn n i j (List.mem_range.mp hi) (List.mem_range.mp hj) h

theorem mem_states (n : Nat) (s : Scenario) :
    s ∈ (List.range (4 ^ n)).map (stateAfter (Scenario.init n)) ↔ s.length = n := by
  rw [List.mem_map]
  constructor
  · rintro ⟨k, _, rfl⟩
    exact (stateAfter_spec n k).1
  · intro hs
    obtain ⟨k, hk, rfl⟩ := stateAfter_surj n s hs
    exact ⟨k, List.mem_range.mpr hk, rfl⟩

/-- Summing any quantity over the enumerated states is summing it over all
assignments of a key state to each of the `n` keys. -/
theorem sum_states (n : Nat) (F : Scenario → ℚ) :
    (((List.range (4 ^ n)).map (stateAfter (Scenario.init n))).map F).sum =
      ∑ f : Fin n → KeyState, F (List.ofFn f) := by
  rw [← List.sum_toFinset F (nodup_states n)]
  have himage : ((List.range (4 ^ n)).map (stateAfter (Scenario.init n))).toFinset =
      Finset.univ.image (fun f : Fin n → KeyState => List.ofFn f) := by
    ext s
    rw [List.mem_toFinset, mem_states, Finset.mem_image]
    constructor
    · intro hs
      subst hs
      exact ⟨fun i => s.get i, Finset.mem_univ _, List.ofFn_get s⟩
    · rintro ⟨f, _, rfl⟩
      exact List.length_ofFn f
  rw [himage, Finset.sum_image]
  intro f _ g _ h
  exact List.ofFn_injective h

/-- The score loop of `successProbability` returns the starting score plus the
probabilities of the enumerated scenarios on which the wallet succeeds. -/
theorem successProbabilityLoop_eq (probabilities : List ℚ) (dnf : Wallet) :
    ∀ (fuel : Nat) (score : ℚ) (s : Scenario),
      successProbabilityLoop probabilities dnf fuel score s =
        (enumeration fuel s).map (fun visited => score +
          (visited.map (fun t => if walletSuccess dnf t then probability probabilities t
            else 0)).sum) := by
  intro fuel
  induction fuel with
  | zero => intro score s; rfl
  | succ fuel ih =>
    intro score s
    rw [successProbabilityLoop, enumeration]
    by_cases hr : (nextScenario s).2 = true
    · simp only [hr, if_true]
      rw [ih, Option.map_map]
      congr 1
      funext visited
      by_cases hw : walletSuccess dnf s = true
      · simp [hw, add_assoc]
      · simp [hw]
    · simp only [hr]
      by_cases hw : walletSuccess dnf s = true
      · simp [hw]
      · simp [hw]

theorem probability_eq_prod (probabilities : List ℚ) (s : Scenario) :
    probability probabilities s = (s.map (fun i => probabilities.getD i.toNat 0)).prod := by
  have key : ∀ (l : Scenario) (a : ℚ),
      l.foldl (fun prob i => prob * probabilities.getD i.toNat 0) a =
        a * (l.map (fun i => probabilities.getD i.toNat 0)).prod := by
    intro l
    induction l with
    | nil => intro a; simp
    | cons x l ih =>
      intro a
      rw [List.foldl_cons, ih, List.map_cons, List.prod_cons, mul_assoc]
  rw [probability, key, one_mul]

theorem univ_keyState :
    (Finset.univ : Finset KeyState) =
      {KeyState.SAFE, KeyState.LOSS, KeyState.LEAK, KeyState.THEFT} := by
  decide

theorem sum_keyState (g : KeyState → ℚ) :
    ∑ d : KeyState, g d =
      g KeyState.SAFE + g KeyState.LOSS + g KeyState.LEAK + g KeyState.THEFT := by
  rw [univ_keyState]
  simp [Finset.sum_insert, add_assoc]

/-- C1: from the all-SAFE scenario of `n >= 1` keys, calls 1 to `4 ^ n - 1` of
`nextScenario` return true and call `4 ^ n` returns false; the `4 ^ n` states seen
before that false are pairwise distinct and are exactly the key-state sequences of
length `n`; the state after the false return is all-SAFE again. -/
theorem nextScenario_enumerates_all (n : Nat) (_hn : 1 ≤ n) :
    (∀ k, k + 1 < 4 ^ n → returnedAt (Scenario.init n) k = true) ∧
    returnedAt (Scenario.init n) (4 ^ n - 1) = false ∧
    (∀ i j, i < 4 ^ n → j < 4 ^ n →
      stateAfter (Scenario.init n) i = stateAfter (Scenario.init n) j → i = j) ∧
    (∀ s : Scenario, s.length = n ↔ ∃ k, k < 4 ^ n ∧ stateAfter (Scenario.init n) k = s) ∧
    stateAfter (Scenario.init n) (4 ^ n) = Scenario.init n := by
  have hpos : 0 < 4 ^ n := Nat.pow_pos (by decide)
  refine ⟨?_, ?_, ?_, ?_, ?_⟩
  · intro k hk
    obtain ⟨h1, h2⟩ := stateAfter_spec n k
    rw [returnedAt, (nextScenario_spec _).2.2, h1, h2, Nat.mod_eq_of_lt (by omega)]
    simp [hk]
  · obtain ⟨h1, h2⟩ := stateAfter_spec n (4 ^ n - 1)
    rw [returnedAt, (nextScenario_spec _).2.2, h1, h2, Nat.mod_eq_of_lt (by omega)]
    have : ¬ (4 ^ n - 1 + 1 < 4 ^ n) := by omega
    simp [this]
  · intro i j hi hj h
    exact stateAfter_injOn n i j hi hj h
  · intro s
    constructor
    · exact stateAfter_surj n s
    · rintro ⟨k, _, rfl⟩
      exact (stateAfter_spec n k).1
  · obtain ⟨h1, h2⟩ := stateAfter_spec n (4 ^ n)
    exact value_injective n _ _ h1 (length_init n) (by rw [h2, Nat.mod_self, value_init])

theorem nextScenario_enumerates_all_witness :
    1 ≤ 2 ∧
    (∀ k, k + 1 < 4 ^ 2 → returnedAt (Scenario.init 2) k = true) ∧
    returnedAt (Scenario.init 2) (4 ^ 2 - 1) = false ∧
    (∀ i j, i < 4 ^ 2 → j < 4 ^ 2 →
      stateAfter (Scenario.init 2) i = stateAfter (Scenario.init 2) j → i = j) ∧
    (∀ s : Scenario, s.length = 2 ↔ ∃ k, k < 4 ^ 2 ∧ stateAfter (Scenario.init 2) k = s) ∧
    stateAfter (Scenario.init 2) (4 ^ 2) = Scenario.init 2 :=
  ⟨by decide, nextScenario_enumerates_all 2 (by decide)⟩

/-- C2: for `n >= 1` keys, any probability vector and any wallet, once the fuel
covers the `4 ^ n` iterations `successProbability` returns the sum, over all
assignments of a key state to each of the `n` keys, of the probability of the
scenario when `walletSuccess` holds on it (and of 0 otherwise). -/
theorem successProbability_eq_sum (n : Nat) (_hn : 1 ≤ n) (probabilities : List ℚ)
    (dnf : Wallet) (fuel : Nat) (hfuel : 4 ^ n ≤ fuel) :
    successProbability n probabilities dnf fuel =
      some (∑ f : Fin n → KeyState,
        if walletSuccess dnf (List.ofFn f) then probability probabilities (List.ofFn f)
        else 0) := by
  rw [successProbability, successProbabilityLoop_eq, enumeration_init n fuel hfuel,
    Option.map_some', zero_add, sum_states]

theorem successProbability_eq_sum_witness :
    1 ≤ 1 ∧ 4 ^ 1 ≤ 4 ∧
    successProbability 1 [7 / 10, 1 / 10, 1 / 5, 0] [[true]] 4 =
      some (∑ f : Fin 1 → KeyState,
        if walletSuccess [[true]] (List.ofFn f)
        then probability [7 / 10, 1 / 10, 1 / 5, 0] (List.ofFn f)
        else 0) :=
  ⟨by decide, by decide,
   successProbability_eq_sum 1 (by decide) [7 / 10, 1 / 10, 1 / 5, 0] [[true]] 4 (by decide)⟩

/-- C3: for `n >= 1` keys and a 4-entry probability vector whose entries sum to 1,
the enumeration from all-SAFE visits `4 ^ n` scenarios and their probabilities
(exact rationals) sum to 1. -/
theorem probability_sums_to_one (n : Nat) (_hn : 1 ≤ n) (probabilities : List ℚ)
    (hlen : probabilities.length = 4) (hsum : probabilities.sum = 1)
    (fuel : Nat) (hfuel : 4 ^ n ≤ fuel) :
    ∃ visited : List Scenario, enumeration fuel (Scenario.init n) = some visited ∧
      visited.length = 4 ^ n ∧ (visited.map (probability probabilities)).sum = 1 := by
  refine ⟨_, enumeration_init n fuel hfuel, by simp, ?_⟩
  rw [sum_states]
  have hprod : ∀ f : Fin n → KeyState,
      probability probabilities (List.ofFn f) = ∏ i, probabilities.getD (f i).toNat 0 := by
    intro f
    rw [probability_eq_prod, List.map_ofFn, List.prod_ofFn]
    rfl
  simp only [hprod]
  rw [← Fintype.sum_pow (fun d : KeyState => probabilities.getD d.toNat 0) n, sum_keyState]
  have hone : probabilities.getD KeyState.SAFE.toNat 0 + probabilities.getD KeyState.LOSS.toNat 0
      + probabilities.getD KeyState.LEAK.toNat 0 + probabilities.getD KeyState.THEFT.toNat 0
      = 1 := by
    match probabilities, hlen, hsum with
    | [a, b, c, d], _, hs =>
      simp only [List.sum_cons, List.sum_nil, add_zero] at hs
      simp only [KeyState.toNat, List.getD_cons_zero, List.getD_cons_succ]
      linarith
  rw [hone, one_pow]

theorem probability_sums_to_one_witness :
    1 ≤ 1 ∧ ([7 / 10, 1 / 10, 1 / 5, 0] : List ℚ).length = 4 ∧
    ([7 / 10, 1 / 10, 1 / 5, 0] : List ℚ).sum = 1 ∧ 4 ^ 1 ≤ 4 ∧
    ∃ visited : List Scenario, enumeration 4 (Scenario.init 1) = some visited ∧
      visited.length = 4 ^ 1 ∧
      (visited.map (probability [7 / 10, 1 / 10, 1 / 5, 0])).sum = 1 :=
  ⟨by decide, rfl, by norm_num, by decide,
   probability_sums_to_one 1 (by decide) [7 / 10, 1 / 10, 1 / 5, 0] rfl (by norm_num) 4
     (by decide)⟩

/-! ## The wallet predicate -/

theorem clauseLoop_iff (c a : List Bool) : ∀ (todo key : Nat),
    clauseLoop c a todo key = true ↔
      ∀ i, key ≤ i → i < key + todo → c.getD i false = true → a.getD i false = true := by
  intro todo
  induction todo with
  | zero =>
    intro key
    simp only [clauseLoop, true_iff]
    intro i h1 h2
    omega
  | succ todo ih =>
    intro key
    rw [clauseLoop]
    by_cases hbad : (c.getD key false && !a.getD key false) = true
    · rw [if_pos hbad]
      simp only [Bool.and_eq_true, Bool.not_eq_true'] at hbad
      constructor
      · intro h; cases h
      · intro h
        have := h key (Nat.le_refl _) (by omega) hbad.1
        rw [hbad.2] at this
        cases this
    · rw [if_neg hbad, ih]
      simp only [Bool.and_eq_true, Bool.not_eq_true', not_and, Bool.not_eq_false] at hbad
      constructor
      · intro h i h1 h2 hc
        rcases Nat.eq_or_lt_of_le h1 with heq | hlt
        · subst heq; exact hbad hc
        · exact h i hlt (by omega) hc
      · intro h i h1 h2 hc
        exact h i (by omega) (by omega) hc

/-- A wallet is satisfied exactly when one of its clauses has all its required keys
available. -/
theorem satisfiesWallet_iff (dnf : Wallet) (a : List Bool) :
    satisfiesWallet dnf a = true ↔
      ∃ c ∈ dnf, ∀ i, i < c.length → c.getD i false = true → a.getD i false = true := by
  induction dnf with
  | nil => simp [satisfiesWallet]
  | cons c rest ih =>
    rw [satisfiesWallet]
    by_cases hc : clauseLoop c a c.length 0 = true
    · rw [if_pos hc]
      simp only [true_iff]
      refine ⟨c, List.mem_cons_self _ _, ?_⟩
      intro i hi
      exact (clauseLoop_iff c a c.length 0).mp hc i (Nat.zero_le _) (by omega)
    · rw [if_neg hc, ih]
      constructor
      · rintro ⟨d, hd, h⟩
        exact ⟨d, List.mem_cons_of_mem _ hd, h⟩
      · rintro ⟨d, hd, h⟩
        rcases List.mem_cons.mp hd with rfl | hd2
        · exfalso
          apply hc
          rw [clauseLoop_iff]
          intro i _ h2
          exact h i (by omega)
        · exact ⟨d, hd2, h⟩

/-- C4: for a wallet whose clauses all have length `n` and an availability vector of
length `n`, `satisfiesWallet` is true exactly when some clause of the wallet has
every required key available (`clause[i]` implies `availability[i]` for every `i < n`); a
wallet with no clauses is never satisfied. -/
theorem satisfiesWallet_or_of_and (n : Nat) (dnf : Wallet) (avail : List Bool)
    (hdnf : ∀ c ∈ dnf, c.length = n) (hav : avail.length = n) :
    (satisfiesWallet dnf avail = true ↔
      ∃ clause ∈ dnf, ∀ i, i < n → clause[i]? = some true → avail[i]? = some true) ∧
    satisfiesWallet [] avail = false := by
  refine ⟨?_, rfl⟩
  rw [satisfiesWallet_iff]
  constructor
  · rintro ⟨c, hc, h⟩
    refine ⟨c, hc, ?_⟩
    intro i hi hci
    have hlen := hdnf c hc
    have h1 := h i (by omega) (by rw [List.getD_eq_getElem?_getD, hci]; rfl)
    rw [List.getD_eq_getElem?_getD, List.getElem?_eq_getElem (by omega)] at h1
    rw [List.getElem?_eq_getElem (by omega)]
    simpa using h1
  · rintro ⟨c, hc, h⟩
    refine ⟨c, hc, ?_⟩
    intro i hi hci
    have hlen := hdnf c hc
    rw [List.getD_eq_getElem?_getD, List.getElem?_eq_getElem hi] at hci
    have h1 := h i (by omega) (by rw [List.getElem?_eq_getElem hi]; simpa using hci)
    rw [List.getD_eq_getElem?_getD, h1]
    rfl

theorem satisfiesWallet_or_of_and_witness :
    (∀ c ∈ ([[true, false], [false, true]] : Wallet), c.length = 2) ∧
    ([false, true] : List Bool).length = 2 ∧
    ((satisfiesWallet [[true, false], [false, true]] [false, true] = true ↔
      ∃ clause ∈ ([[true, false], [false, true]] : Wallet),
        ∀ i, i < 2 → clause[i]? = some true → ([false, true] : List Bool)[i]? = some true) ∧
    satisfiesWallet [] [false, true] = false) :=
  ⟨by decide, rfl,
   satisfiesWallet_or_of_and 2 [[true, false], [false, true]] [false, true] (by decide) rfl⟩

/-! ## The two end-to-end scenarios with two keys -/

theorem states_two :
    (List.range (4 ^ 2)).map (stateAfter (Scenario.init 2)) =
      [[KeyState.SAFE, KeyState.SAFE], [KeyState.SAFE, KeyState.LOSS],
       [KeyState.SAFE, KeyState.LEAK], [KeyState.SAFE, KeyState.THEFT],
       [KeyState.LOSS, KeyState.SAFE], [KeyState.LOSS, KeyState.LOSS],
       [KeyState.LOSS, KeyState.LEAK], [KeyState.LOSS, KeyState.THEFT],
       [KeyState.LEAK, KeyState.SAFE], [KeyState.LEAK, KeyState.LOSS],
       [KeyState.LEAK, KeyState.LEAK], [KeyState.LEAK, KeyState.THEFT],
       [KeyState.THEFT, KeyState.SAFE], [KeyState.THEFT, KeyState.LOSS],
       [KeyState.THEFT, KeyState.LEAK], [KeyState.THEFT, KeyState.THEFT]] := by
  decide

/-- With two keys, `successProbability` is the sum of the sixteen guarded terms. -/
theorem successProbability_two (probabilities : List ℚ) (dnf : Wallet) (fuel : Nat)
    (hfuel : 16 ≤ fuel) :
    successProbability 2 probabilities dnf fuel =
      some (([[KeyState.SAFE, KeyState.SAFE], [KeyState.SAFE, KeyState.LOSS],
       [KeyState.SAFE, KeyState.LEAK], [KeyState.SAFE, KeyState.THEFT],
       [KeyState.LOSS, KeyState.SAFE], [KeyState.LOSS, KeyState.LOSS],
       [KeyState.LOSS, KeyState.LEAK], [KeyState.LOSS, KeyState.THEFT],
       [KeyState.LEAK, KeyState.SAFE], [KeyState.LEAK, KeyState.LOSS],
       [KeyState.LEAK, KeyState.LEAK], [KeyState.LEAK, KeyState.THEFT],
       [KeyState.THEFT, KeyState.SAFE], [KeyState.THEFT, KeyState.LOSS],
       [KeyState.THEFT, KeyState.LEAK], [KeyState.THEFT, KeyState.THEFT]].map
        (fun t => if walletSuccess dnf t then probability probabilities t else 0)).sum) := by
  rw [successProbability, successProbabilityLoop_eq, enumeration_init 2 fuel hfuel,
    Option.map_some', zero_add, states_two]

/-- In the all-SAFE scenario of two keys a wallet succeeds when it has a clause and
every clause requires some key. -/
theorem walletSuccess_allSafe_two (dnf : Wallet) (hne : 1 ≤ dnf.length)
    (hlen : ∀ clause ∈ dnf, clause.length = 2) (hreq : ∀ clause ∈ dnf, true ∈ clause) :
    walletSuccess dnf [KeyState.SAFE, KeyState.SAFE] = true := by
  have howner : satisfiesWallet dnf [true, true] = true := by
    rw [satisfiesWallet_iff]
    match dnf, hne, hlen with
    | clause :: rest, _, hl =>
      refine ⟨clause, List.mem_cons_self _ _, ?_⟩
      intro i hi _
      have := hl clause (List.mem_cons_self _ _)
      have hi2 : i < 2 := by omega
      interval_cases i <;> rfl
  have hadv : satisfiesWallet dnf [false, false] = false := by
    rw [← Bool.not_eq_true, satisfiesWallet_iff]
    rintro ⟨clause, hc, h⟩
    obtain ⟨i, hi, hget⟩ := List.getElem_of_mem (hreq clause hc)
    have h1 := h i hi (by rw [List.getD_eq_getElem?_getD, List.getElem?_eq_getElem hi, hget]; rfl)
    have hi2 : i < 2 := by rw [← hlen clause hc]; exact hi
    interval_cases i <;> cases h1
  have hav : availability [KeyState.SAFE, KeyState.SAFE] = ([true, true], [false, false]) := by
    decide
  rw [walletSuccess, hav]
  simp [howner, hadv]

/-- In the all-THEFT scenario of two keys no wallet succeeds: a clause that the
owner (who holds no key) satisfies is satisfied by the adversary too. -/
theorem walletSuccess_allTheft_two (dnf : Wallet) :
    walletSuccess dnf [KeyState.THEFT, KeyState.THEFT] = false := by
  have himp : satisfiesWallet dnf [false, false] = true →
      satisfiesWallet dnf [true, true] = true := by
    rw [satisfiesWallet_iff, satisfiesWallet_iff]
    rintro ⟨clause, hc, h⟩
    refine ⟨clause, hc, ?_⟩
    intro i hi hci
    have h1 := h i hi hci
    match i with
    | 0 => rfl
    | 1 => rfl
    | k + 2 => exact h1
  have hav : availability [KeyState.THEFT, KeyState.THEFT] = ([false, false], [true, true]) := by
    decide
  rw [walletSuccess, hav]
  cases hown : satisfiesWallet dnf [false, false]
  · simp [hown]
  · simp [hown, himp hown]

/-- C5 (as amended): with two keys and probability vector [1, 0, 0, 0], every wallet
with at least one clause, all clauses of length 2, in which every clause requires at
least one key, has success probability 1. -/
theorem successProbability_allSafe (dnf : Wallet) (hne : 1 ≤ dnf.length)
    (hlen : ∀ clause ∈ dnf, clause.length = 2) (hreq : ∀ clause ∈ dnf, true ∈ clause)
    (fuel : Nat) (hfuel : 16 ≤ fuel) :
    successProbability 2 [1, 0, 0, 0] dnf fuel = some 1 := by
  rw [successProbability_two _ _ _ hfuel]
  simp [walletSuccess_allSafe_two dnf hne hlen hreq, probability, KeyState.toNat]

theorem successProbability_allSafe_witness :
    1 ≤ ([[true, false], [true, true]] : Wallet).length ∧
    (∀ clause ∈ ([[true, false], [true, true]] : Wallet), clause.length = 2) ∧
    (∀ clause ∈ ([[true, false], [true, true]] : Wallet), true ∈ clause) ∧
    16 ≤ 16 ∧
    successProbability 2 [1, 0, 0, 0] [[true, false], [true, true]] 16 = some 1 :=
  ⟨by decide, by decide, by decide, by decide,
   successProbability_allSafe [[true, false], [true, true]] (by decide) (by decide)
     (by decide) 16 (by decide)⟩

/-- C5 (as stated) fails: the wallet with clauses [true, false] and [false, false] has
length-2 clauses and a non-empty clause, yet its success probability under
[1, 0, 0, 0] is 0, because the all-false clause is satisfied by the adversary. -/
theorem successProbability_allSafe_counterexample :
    1 ≤ ([[true, false], [false, false]] : Wallet).length ∧
    (∀ clause ∈ ([[true, false], [false, false]] : Wallet), clause.length = 2) ∧
    (∃ clause ∈ ([[true, false], [false, false]] : Wallet), true ∈ clause) ∧
    successProbability 2 [1, 0, 0, 0] [[true, false], [false, false]] 16 = some 0 ∧
    successProbability 2 [1, 0, 0, 0] [[true, false], [false, false]] 16 ≠ some 1 := by
  decide

/-- C6: with two keys and probability vector [0, 0, 0, 1], every wallet whose clauses
have length 2 (all-false clauses included) has success probability 0. -/
theorem successProbability_allTheft (dnf : Wallet)
    (_hlen : ∀ clause ∈ dnf, clause.length = 2) (fuel : Nat) (hfuel : 16 ≤ fuel) :
    successProbability 2 [0, 0, 0, 1] dnf fuel = some 0 := by
  rw [successProbability_two _ _ _ hfuel]
  simp [walletSuccess_allTheft_two dnf, probability, KeyState.toNat]

theorem successProbability_allTheft_witness :
    (∀ clause ∈ ([[false, false], [true, false]] : Wallet), clause.length = 2) ∧
    16 ≤ 16 ∧
    successProbability 2 [0, 0, 0, 1] [[false, false], [true, false]] 16 = some 0 :=
  ⟨by decide, by decide,
   successProbability_allTheft [[false, false], [true, false]] (by decide) 16 (by decide)⟩

/-! ## Randomize and perturb -/

/-- C7 (the code at the failing input): with two keys in state [THEFT, THEFT] and the
draw 1, `randomize` stops as soon as the remaining number is 0 and leaves the first
key THEFT, whereas the 2-digit base-4 representation of 1 is [SAFE, LOSS]; from the
all-SAFE state the same draw gives [SAFE, LOSS], so the result depends on the state
held before the call. -/
theorem randomize_keeps_leading_keys :
    randomize [KeyState.THEFT, KeyState.THEFT] 1 = some [KeyState.THEFT, KeyState.LOSS] ∧
    base4 2 1 = [KeyState.SAFE, KeyState.LOSS] ∧
    randomize [KeyState.SAFE, KeyState.SAFE] 1 = some [KeyState.SAFE, KeyState.LOSS] ∧
    randomize [KeyState.THEFT, KeyState.THEFT] 1 ≠ some (base4 2 1) := by
  decide

theorem perturbBits_false : ∀ (bits : List Bool) (j : Nat),
    perturbBits (fun _ => false) bits j = bits := by
  intro bits
  induction bits with
  | nil => intro j; rfl
  | cons b rest ih => intro j; simp [perturbBits, ih]

theorem perturbBits_true : ∀ (bits : List Bool) (j : Nat),
    perturbBits (fun _ => true) bits j = bits.map (fun b => !b) := by
  intro bits
  induction bits with
  | nil => intro j; rfl
  | cons b rest ih => intro j; simp [perturbBits, ih]

theorem set_getElem_same (dnf : Wallet) (r : Nat) (hr : r < dnf.length) :
    dnf.set r dnf[r] = dnf := by
  apply List.ext_getElem (by simp)
  intro j h1 h2
  rw [List.getElem_set]
  split
  · next h => subst h; rfl
  · rfl

/-- C8: for a wallet and a drawn clause index `r` within it (so the wallet has at
least one clause): when every Bernoulli draw is false, `perturb` returns the wallet
unchanged; when every draw is true, it keeps the number of clauses, replaces clause
`r` by its bitwise negation and leaves every clause at an index other than `r` as
it was. -/
theorem perturb_boundary (dnf : Wallet) (r : Nat) (hr : r < dnf.length) :
    perturb dnf r (fun _ => false) = dnf ∧
    (perturb dnf r (fun _ => true)).length = dnf.length ∧
    (perturb dnf r (fun _ => true))[r]? =
      dnf[r]?.map (fun clause => clause.map (fun b => !b)) ∧
    (∀ j, j ≠ r → (perturb dnf r (fun _ => true))[j]? = dnf[j]?) := by
  have hget : dnf.getD r [] = dnf[r] := by
    rw [List.getD_eq_getElem?_getD, List.getElem?_eq_getElem hr]
    rfl
  refine ⟨?_, ?_, ?_, ?_⟩
  · rw [perturb, perturbBits_false, hget]
    exact set_getElem_same dnf r hr
  · simp [perturb]
  · rw [perturb, perturbBits_true, hget, List.getElem?_set_self hr,
      List.getElem?_eq_getElem hr]
    rfl
  · intro j hj
    rw [perturb, List.getElem?_set_ne (Ne.symm hj)]

theorem perturb_boundary_witness :
    1 < ([[true, false], [false, false]] : Wallet).length ∧
    perturb [[true, false], [false, false]] 1 (fun _ => false) =
      [[true, false], [false, false]] ∧
    (perturb [[true, false], [false, false]] 1 (fun _ => true)).length =
      ([[true, false], [false, false]] : Wallet).length ∧
    (perturb [[true, false], [false, false]] 1 (fun _ => true))[1]? =
      ([[true, false], [false, false]] : Wallet)[1]?.map
        (fun clause => clause.map (fun b => !b)) ∧
    (∀ j, j ≠ 1 → (perturb [[true, false], [false, false]] 1 (fun _ => true))[j]? =
      ([[true, false], [false, false]] : Wallet)[j]?) :=
  ⟨by decide, perturb_boundary [[true, false], [false, false]] 1 (by decide)⟩

/-! ## The genetic algorithm -/

/-- The score `getFittest` gives a slot: the fitness of its chromosome, 0 when null. -/
theorem getFittestLoop_of_le {C : Type} (fitness : C → ℚ) :
    ∀ (group : List (Option C)) (bestScore : ℚ) (cur : Option C),
      (∀ d, some d ∈ group → fitness d ≤ bestScore) → 0 ≤ bestScore →
      getFittestLoop fitness group bestScore cur = cur := by
  intro group
  induction group with
  | nil => intro bestScore cur _ _; rfl
  | cons w rest ih =>
    intro bestScore cur h h0
    have hrest : ∀ d, some d ∈ rest → fitness d ≤ bestScore :=
      fun d hd => h d (List.mem_cons_of_mem _ hd)
    cases w with
    | none =>
      rw [getFittestLoop]
      simp only [gt_iff_lt, not_lt.mpr h0, if_false]
      exact ih bestScore cur hrest h0
    | some c =>
      rw [getFittestLoop]
      simp only [gt_iff_lt, not_lt.mpr (h c (List.mem_cons_self _ _)), if_false]
      exact ih bestScore cur hrest h0

theorem getFittestLoop_of_lt {C : Type} (fitness : C → ℚ) :
    ∀ (group : List (Option C)) (bestScore : ℚ) (cur : Option C), 0 ≤ bestScore →
      (∃ d, some d ∈ group ∧ bestScore < fitness d) →
      ∃ (i : Nat) (c : C), getFittestLoop fitness group bestScore cur = some c ∧
        group[i]? = some (some c) ∧ bestScore < fitness c ∧
        (∀ (j : Nat) (d : C), group[j]? = some (some d) → fitness d ≤ fitness c) ∧
        (∀ (j : Nat) (d : C), j < i → group[j]? = some (some d) → fitness d < fitness c) := by
  intro group
  induction group with
  | nil =>
    intro bestScore cur _ h
    obtain ⟨d, hd, _⟩ := h
    cases hd
  | cons w rest ih =>
    intro bestScore cur h0 hex
    by_cases hw : ∃ c, w = some c ∧ bestScore < fitness c
    · obtain ⟨c, rfl, hc⟩ := hw
      rw [getFittestLoop]
      simp only [gt_iff_lt, hc, if_true]
      by_cases hmore : ∃ d, some d ∈ rest ∧ fitness c < fitness d
      · obtain ⟨i, e, he, hi, hlt, hmax, hfirst⟩ :=
          ih (fitness c) (some c) (le_trans h0 (le_of_lt hc)) hmore
        refine ⟨i + 1, e, he, by simpa using hi, lt_trans hc hlt, ?_, ?_⟩
        · intro j d hj
          cases j with
          | zero =>
            simp only [List.getElem?_cons_zero, Option.some.injEq] at hj
            subst hj
            exact le_of_lt hlt
          | succ j => exact hmax j d (by simpa using hj)
        · intro j d hji hj
          cases j with
          | zero =>
            simp only [List.getElem?_cons_zero, Option.some.injEq] at hj
            subst hj
            exact hlt
          | succ j => exact hfirst j d (by omega) (by simpa using hj)
      · have hle : ∀ d, some d ∈ rest → fitness d ≤ fitness c := by
          intro d hd
          by_contra hcon
          exact hmore ⟨d, hd, not_le.mp hcon⟩
        rw [getFittestLoop_of_le fitness rest (fitness c) (some c) hle
          (le_trans h0 (le_of_lt hc))]
        refine ⟨0, c, rfl, by simp, hc, ?_, ?_⟩
        · intro j d hj
          cases j with
          | zero =>
            simp only [List.getElem?_cons_zero, Option.some.injEq] at hj
            subst hj
            exact le_refl _
          | succ j =>
            have hj2 : rest[j]? = some (some d) := by simpa using hj
            exact hle d (List.getElem?_mem hj2)
        · intro j d hji _
          omega
    · have hstep : getFittestLoop fitness (w :: rest) bestScore cur =
          getFittestLoop fitness rest bestScore cur := by
        cases w with
        | none =>
          simp only [getFittestLoop]
          rw [if_neg (not_lt.mpr h0)]
        | some c =>
          simp only [getFittestLoop]
          rw [if_neg (fun hc => hw ⟨c, rfl, hc⟩)]
      rw [hstep]
      have hex2 : ∃ d, some d ∈ rest ∧ bestScore < fitness d := by
        obtain ⟨d, hd, hlt⟩ := hex
        rcases List.mem_cons.mp hd with heq | hmem
        · exact absurd ⟨d, heq.symm, hlt⟩ hw
        · exact ⟨d, hmem, hlt⟩
      obtain ⟨i, e, he, hi, hlt, hmax, hfirst⟩ := ih bestScore cur h0 hex2
      have hwlt : ∀ d, w = some d → fitness d < fitness e := by
        intro d hd
        have : ¬ bestScore < fitness d := fun hc => hw ⟨d, hd, hc⟩
        exact lt_of_le_of_lt (not_lt.mp this) hlt
      refine ⟨i + 1, e, he, by simpa using hi, hlt, ?_, ?_⟩
      · intro j d hj
        cases j with
        | zero =>
          simp only [List.getElem?_cons_zero, Option.some.injEq] at hj
          exact le_of_lt (hwlt d hj)
        | succ j => exact hmax j d (by simpa using hj)
      · intro j d hji hj
        cases j with
        | zero =>
          simp only [List.getElem?_cons_zero, Option.some.injEq] at hj
          exact hwlt d hj
        | succ j => exact hfirst j d (by omega) (by simpa using hj)

/-- C9 (the code at the failing input): with populationSize = selectionSize =
iterationsToHalt = 1 and a population holding the single wallet whose only clause is
[false, false], scored by the exact success probability for two keys under
[0.7, 0.1, 0.2, 0], the wallet scores 0, `getFittest` finds no fittest, and the
generation dereferences that null result when it fills slot 0. -/
theorem generation_null_dereference (perturbFn : Nat → Wallet → ℚ → Wallet)
    (shuffle : Nat → List Nat) (bestChromosome : Wallet) :
    getFittest (fun w => (successProbability 2 [7 / 10, 1 / 10, 1 / 5, 0] w 16).getD 0)
      [some [[false, false]]] = none ∧
    generation (Config.mk 1 1 1 0)
      (fun w => (successProbability 2 [7 / 10, 1 / 10, 1 / 5, 0] w 16).getD 0)
      perturbFn shuffle (RunState.mk [some [[false, false]]] bestChromosome 0 0) = none := by
  have h : getFittest (fun w => (successProbability 2 [7 / 10, 1 / 10, 1 / 5, 0] w 16).getD 0)
      [some [[false, false]]] = none := by
    decide
  refine ⟨h, ?_⟩
  simp only [generation, h, gt_iff_lt, lt_self_iff_false, if_false]

/-- C10: `getFittest` returns null exactly when the group is empty or every slot is
null or holds a chromosome of fitness at most 0; otherwise it returns the chromosome
at some index `i` whose fitness is the greatest among the non-null slots, every
non-null slot before `i` having strictly smaller fitness (the first maximum wins). -/
theorem getFittest_spec {C : Type} (fitness : C → ℚ) (group : List (Option C)) :
    (getFittest fitness group = none ↔
      group = [] ∨ ∀ slot ∈ group, slot = none ∨ ∃ d, slot = some d ∧ fitness d ≤ 0) ∧
    (¬ (group = [] ∨ ∀ slot ∈ group, slot = none ∨ ∃ d, slot = some d ∧ fitness d ≤ 0) →
      ∃ (i : Nat) (c : C), getFittest fitness group = some c ∧ group[i]? = some (some c) ∧
        (∀ (j : Nat) (d : C), group[j]? = some (some d) → fitness d ≤ fitness c) ∧
        (∀ (j : Nat) (d : C), j < i → group[j]? = some (some d) → fitness d < fitness c)) := by
  by_cases hall : ∀ d, some d ∈ group → fitness d ≤ 0
  · have hnone : getFittest fitness group = none :=
      getFittestLoop_of_le fitness group 0 none hall (le_refl 0)
    have hright : group = [] ∨ ∀ slot ∈ group, slot = none ∨ ∃ d, slot = some d ∧ fitness d ≤ 0 := by
      right
      intro slot hslot
      cases slot with
      | none => exact Or.inl rfl
      | some d => exact Or.inr ⟨d, rfl, hall d hslot⟩
    exact ⟨⟨fun _ => hright, fun _ => hnone⟩, fun hcon => absurd hright hcon⟩
  · have hex : ∃ d, some d ∈ group ∧ (0 : ℚ) < fitness d := by
      by_contra hcon
      apply hall
      intro d hd
      by_contra hlt
      exact hcon ⟨d, hd, not_le.mp hlt⟩
    obtain ⟨i, c, hres, hi, hpos, hmax, hfirst⟩ :=
      getFittestLoop_of_lt fitness group 0 none (le_refl 0) hex
    have hres2 : getFittest fitness group = some c := hres
    have hnot : ¬ (group = [] ∨
        ∀ slot ∈ group, slot = none ∨ ∃ d, slot = some d ∧ fitness d ≤ 0) := by
      rintro (hnil | hslots)
      · rw [hnil] at hi
        simp at hi
      · rcases hslots (some c) (List.getElem?_mem hi) with h1 | ⟨d, h1, h2⟩
        · cases h1
        · cases h1
          exact absurd hpos (not_lt.mpr h2)
    refine ⟨⟨fun h => ?_, fun h => absurd h hnot⟩, fun _ => ⟨i, c, hres2, hi, hmax, hfirst⟩⟩
    rw [hres2] at h
    cases h

/-! ## The counter step, availability, selection and the wallet shape -/

theorem value_allTheft (n : Nat) : value (List.replicate n KeyState.THEFT) + 1 = 4 ^ n := by
  induction n with
  | zero => rfl
  | succ n ih =>
    rw [List.replicate_succ', value_concat, pow_succ]
    have : KeyState.THEFT.toNat = 3 := rfl
    omega

/-- C15: for `n >= 1` keys and a scenario `s` of length `n`, with `value` reading
the keys as a base-4 number whose last key is least significant: `nextScenario`
keeps the length and leaves the value `(value s + 1) mod 4 ^ n`; it returns false
exactly when `s` is all-THEFT, which is exactly when the state it leaves is all-SAFE,
and it returns true in every other case. -/
theorem nextScenario_counter (n : Nat) (_hn : 1 ≤ n) (s : Scenario) (hs : s.length = n) :
    (nextScenario s).1.length = n ∧
    value (nextScenario s).1 = (value s + 1) % 4 ^ n ∧
    ((nextScenario s).2 = false ↔ s = List.replicate n KeyState.THEFT) ∧
    (s = List.replicate n KeyState.THEFT ↔ (nextScenario s).1 = Scenario.init n) ∧
    (s ≠ List.replicate n KeyState.THEFT → (nextScenario s).2 = true) := by
  obtain ⟨h1, h2, h3⟩ := nextScenario_spec s
  rw [hs] at h1 h2 h3
  have hlt : value s < 4 ^ n := hs ▸ value_lt s
  have htheft : s = List.replicate n KeyState.THEFT ↔ value s + 1 = 4 ^ n := by
    constructor
    · intro h
      rw [h]
      exact value_allTheft n
    · intro h
      apply value_injective n _ _ hs (by simp)
      have := value_allTheft n
      omega
  have hsafe : (nextScenario s).1 = Scenario.init n ↔ value s + 1 = 4 ^ n := by
    constructor
    · intro h
      have hv : value (nextScenario s).1 = 0 := by rw [h, value_init]
      rw [h2] at hv
      by_contra hne
      rw [Nat.mod_eq_of_lt (by omega)] at hv
      omega
    · intro h
      apply value_injective n _ _ h1 (length_init n)
      rw [h2, h, Nat.mod_self, value_init]
  have hret : (nextScenario s).2 = false ↔ value s + 1 = 4 ^ n := by
    rw [h3]
    simp only [decide_eq_false_iff_not, not_lt]
    omega
  refine ⟨h1, h2, ?_, ?_, ?_⟩
  · rw [hret, htheft]
  · rw [hsafe, htheft]
  · intro hne
    cases hb : (nextScenario s).2
    · exact absurd (htheft.mpr (hret.mp hb)) hne
    · rfl

theorem nextScenario_counter_witness :
    1 ≤ 2 ∧ ([KeyState.LOSS, KeyState.THEFT] : Scenario).length = 2 ∧
    ((nextScenario [KeyState.LOSS, KeyState.THEFT]).1.length = 2 ∧
    value (nextScenario [KeyState.LOSS, KeyState.THEFT]).1 =
      (value [KeyState.LOSS, KeyState.THEFT] + 1) % 4 ^ 2 ∧
    ((nextScenario [KeyState.LOSS, KeyState.THEFT]).2 = false ↔
      [KeyState.LOSS, KeyState.THEFT] = List.replicate 2 KeyState.THEFT) ∧
    ([KeyState.LOSS, KeyState.THEFT] = List.replicate 2 KeyState.THEFT ↔
      (nextScenario [KeyState.LOSS, KeyState.THEFT]).1 = Scenario.init 2) ∧
    ([KeyState.LOSS, KeyState.THEFT] ≠ List.replicate 2 KeyState.THEFT →
      (nextScenario [KeyState.LOSS, KeyState.THEFT]).2 = true)) :=
  ⟨by decide, rfl, nextScenario_counter 2 (by decide) [KeyState.LOSS, KeyState.THEFT] rfl⟩

/-- C14: for a scenario of `n` keys, `availability` returns two vectors of length `n`;
at every key `i`, whose state is `st`, the owner entry is true exactly when `st` is
neither LOSS nor THEFT (that is, SAFE or LEAK) and the adversary entry is true exactly
when `st` is LEAK or THEFT. -/
theorem availability_spec (n : Nat) (s : Scenario) (hs : s.length = n) :
    (availability s).1.length = n ∧ (availability s).2.length = n ∧
    ∀ (i : Nat) (st : KeyState), s[i]? = some st →
      ∃ (owner adversary : Bool),
        (availability s).1[i]? = some owner ∧ (availability s).2[i]? = some adversary ∧
        (owner = true ↔ st ≠ KeyState.LOSS ∧ st ≠ KeyState.THEFT) ∧
        (owner = true ↔ st = KeyState.SAFE ∨ st = KeyState.LEAK) ∧
        (adversary = true ↔ st = KeyState.LEAK ∨ st = KeyState.THEFT) := by
  refine ⟨by simp [availability, hs], by simp [availability, hs], ?_⟩
  intro i st hi
  refine ⟨!(st == KeyState.LOSS || st == KeyState.THEFT),
    (st == KeyState.LEAK || st == KeyState.THEFT), ?_, ?_, ?_, ?_, ?_⟩
  · simp only [availability, List.getElem?_map, hi, Option.map_some']
  · simp only [availability, List.getElem?_map, hi, Option.map_some']
  · cases st <;> decide
  · cases st <;> decide
  · cases st <;> decide

theorem availability_spec_witness :
    ([KeyState.LEAK, KeyState.LOSS] : Scenario).length = 2 ∧
    ((availability [KeyState.LEAK, KeyState.LOSS]).1.length = 2 ∧
    (availability [KeyState.LEAK, KeyState.LOSS]).2.length = 2 ∧
    ∀ (i : Nat) (st : KeyState), ([KeyState.LEAK, KeyState.LOSS] : Scenario)[i]? = some st →
      ∃ (owner adversary : Bool),
        (availability [KeyState.LEAK, KeyState.LOSS]).1[i]? = some owner ∧
        (availability [KeyState.LEAK, KeyState.LOSS]).2[i]? = some adversary ∧
        (owner = true ↔ st ≠ KeyState.LOSS ∧ st ≠ KeyState.THEFT) ∧
        (owner = true ↔ st = KeyState.SAFE ∨ st = KeyState.LEAK) ∧
        (adversary = true ↔ st = KeyState.LEAK ∨ st = KeyState.THEFT)) :=
  ⟨rfl, availability_spec 2 [KeyState.LEAK, KeyState.LOSS] rfl⟩

/-- C12: for a population of `n` slots, a shuffled index vector `nums` that is a
permutation of `0 .. n - 1` and `k <= n`, `selectUAR` returns exactly `k` members:
the population's slots at `k` pairwise distinct indices, each below `n`. -/
theorem selectUAR_distinct {C : Type} (n k : Nat) (population : List (Option C))
    (nums : List Nat) (hpop : population.length = n) (hperm : nums.Perm (List.range n))
    (hk : k ≤ n) :
    (selectUAR population nums k).length = k ∧
    ∃ indices : List Nat, indices.length = k ∧ indices.Nodup ∧ (∀ i ∈ indices, i < n) ∧
      ∀ (j : Nat), j < k → ∃ (i : Nat) (member : Option C),
        indices[j]? = some i ∧ population[i]? = some member ∧
        (selectUAR population nums k)[j]? = some member := by
  have hlen : nums.length = n := by rw [hperm.length_eq, List.length_range]
  have hnodup : nums.Nodup := hperm.nodup_iff.mpr (List.nodup_range n)
  have hmem : ∀ i ∈ nums, i < n := fun i hi => List.mem_range.mp (hperm.mem_iff.mp hi)
  have htake : (nums.take k).length = k := by
    rw [List.length_take, hlen]
    omega
  refine ⟨by simp [selectUAR, hlen, hk], nums.take k, htake, ?_, ?_, ?_⟩
  · exact List.Nodup.sublist (List.take_sublist k nums) hnodup
  · intro i hi
    exact hmem i (List.mem_of_mem_take hi)
  · intro j hj
    have hj2 : j < (nums.take k).length := by rw [htake]; exact hj
    have hin : (nums.take k)[j] < population.length := by
      rw [hpop]
      exact hmem _ (List.mem_of_mem_take (List.getElem_mem hj2))
    refine ⟨(nums.take k)[j], population[(nums.take k)[j]], List.getElem?_eq_getElem hj2,
      List.getElem?_eq_getElem hin, ?_⟩
    simp only [selectUAR, List.getElem?_map, List.getElem?_eq_getElem hj2, Option.map_some']
    rw [List.getD_eq_getElem?_getD, List.getElem?_eq_getElem hin]
    rfl

theorem selectUAR_distinct_witness :
    ([some 10, none, some 30] : List (Option Nat)).length = 3 ∧
    ([2, 0, 1] : List Nat).Perm (List.range 3) ∧ 2 ≤ 3 ∧
    ((selectUAR ([some 10, none, some 30] : List (Option Nat)) [2, 0, 1] 2).length = 2 ∧
    ∃ indices : List Nat, indices.length = 2 ∧ indices.Nodup ∧ (∀ i ∈ indices, i < 3) ∧
      ∀ (j : Nat), j < 2 → ∃ (i : Nat) (member : Option Nat),
        indices[j]? = some i ∧ ([some 10, none, some 30] : List (Option Nat))[i]? = some member ∧
        (selectUAR ([some 10, none, some 30] : List (Option Nat)) [2, 0, 1] 2)[j]? =
          some member) :=
  ⟨rfl, by decide, by decide,
   selectUAR_distinct 3 2 [some 10, none, some 30] [2, 0, 1] rfl (by decide) (by decide)⟩

theorem length_perturbBits (bernoulli : Nat → Bool) : ∀ (bits : List Bool) (j : Nat),
    (perturbBits bernoulli bits j).length = bits.length := by
  intro bits
  induction bits with
  | nil => intro j; rfl
  | cons b rest ih => intro j; simp [perturbBits, ih]

theorem getElem?_perturb_length (dnf : Wallet) (r : Nat) (bernoulli : Nat → Bool) (j : Nat) :
    ((perturb dnf r bernoulli)[j]?).map List.length = (dnf[j]?).map List.length := by
  by_cases hjr : r = j
  · subst hjr
    by_cases hr : r < dnf.length
    · rw [perturb, List.getElem?_set_self hr, List.getElem?_eq_getElem hr,
        Option.map_some', Option.map_some', length_perturbBits,
        List.getD_eq_getElem?_getD, List.getElem?_eq_getElem hr]
      rfl
    · rw [perturb, List.getElem?_eq_none (by simp; omega), List.getElem?_eq_none (by omega)]
  · rw [perturb, List.getElem?_set_ne hjr]

/-- C16: for `n >= 1` keys the range `[1, (3 n) / 2]` of the clause count is not
empty, and for every drawn clause count in it and every outcome of the Bernoulli
draws the constructed wallet has that many clauses (so between 1 and `(3 n) / 2`),
each of length `n`; for every wallet, drawn clause index `r` within it and outcome
of the Bernoulli draws, `perturb` keeps the number of clauses, keeps the length of
every clause and leaves every clause at an index other than `r` unchanged, so it
preserves "at least one clause, every clause of length `n`". -/
theorem wallet_shape (n : Nat) (hn : 1 ≤ n) :
    1 ≤ maxWalletSize n ∧
    (∀ (walletSize : Nat) (bernoulli : Nat → Nat → Bool),
      1 ≤ walletSize → walletSize ≤ maxWalletSize n →
      (Wallet.construct n walletSize bernoulli).length = walletSize ∧
      1 ≤ (Wallet.construct n walletSize bernoulli).length ∧
      (Wallet.construct n walletSize bernoulli).length ≤ (3 * n) / 2 ∧
      ∀ clause ∈ Wallet.construct n walletSize bernoulli, clause.length = n) ∧
    (∀ (dnf : Wallet) (r : Nat) (bernoulli : Nat → Bool), r < dnf.length →
      (perturb dnf r bernoulli).length = dnf.length ∧
      (∀ j : Nat, ((perturb dnf r bernoulli)[j]?).map List.length = (dnf[j]?).map List.length) ∧
      (∀ j : Nat, j ≠ r → (perturb dnf r bernoulli)[j]? = dnf[j]?) ∧
      (1 ≤ dnf.length → (∀ clause ∈ dnf, clause.length = n) →
        1 ≤ (perturb dnf r bernoulli).length ∧
        ∀ clause ∈ perturb dnf r bernoulli, clause.length = n)) := by
  refine ⟨?_, ?_, ?_⟩
  · unfold maxWalletSize
    omega
  · intro walletSize bernoulli h1 h2
    have hlen : (Wallet.construct n walletSize bernoulli).length = walletSize := by
      simp [Wallet.construct]
    refine ⟨hlen, by omega, ?_, ?_⟩
    · rw [hlen]
      unfold maxWalletSize at h2
      omega
    · intro clause hclause
      simp only [Wallet.construct, List.mem_map] at hclause
      obtain ⟨r, _, rfl⟩ := hclause
      simp
  · intro dnf r bernoulli hr
    have hlen : (perturb dnf r bernoulli).length = dnf.length := by simp [perturb]
    refine ⟨hlen, getElem?_perturb_length dnf r bernoulli, ?_, ?_⟩
    · intro j hj
      rw [perturb, List.getElem?_set_ne (Ne.symm hj)]
    · intro hne hall
      refine ⟨by omega, ?_⟩
      intro clause hclause
      obtain ⟨j, hj⟩ := List.mem_iff_getElem?.mp hclause
      have h := getElem?_perturb_length dnf r bernoulli j
      rw [hj, Option.map_some'] at h
      cases hd : dnf[j]? with
      | none => rw [hd] at h; cases h
      | some old =>
        rw [hd, Option.map_some', Option.some.injEq] at h
        rw [h]
        exact hall old (List.getElem?_mem hd)

theorem wallet_shape_witness :
    1 ≤ 2 ∧
    (1 ≤ maxWalletSize 2 ∧
    (∀ (walletSize : Nat) (bernoulli : Nat → Nat → Bool),
      1 ≤ walletSize → walletSize ≤ maxWalletSize 2 →
      (Wallet.construct 2 walletSize bernoulli).length = walletSize ∧
      1 ≤ (Wallet.construct 2 walletSize bernoulli).length ∧
      (Wallet.construct 2 walletSize bernoulli).length ≤ (3 * 2) / 2 ∧
      ∀ clause ∈ Wallet.construct 2 walletSize bernoulli, clause.length = 2) ∧
    (∀ (dnf : Wallet) (r : Nat) (bernoulli : Nat → Bool), r < dnf.length →
      (perturb dnf r bernoulli).length = dnf.length ∧
      (∀ j : Nat, ((perturb dnf r bernoulli)[j]?).map List.length = (dnf[j]?).map List.length) ∧
      (∀ j : Nat, j ≠ r → (perturb dnf r bernoulli)[j]? = dnf[j]?) ∧
      (1 ≤ dnf.length → (∀ clause ∈ dnf, clause.length = 2) →
        1 ≤ (perturb dnf r bernoulli).length ∧
        ∀ clause ∈ perturb dnf r bernoulli, clause.length = 2))) :=
  ⟨by decide, wallet_shape 2 (by decide)⟩

/-! ## Scenarios without a safe key and wallets with an empty clause -/

theorem successProbability_eq (n : Nat) (probabilities : List ℚ) (dnf : Wallet) (fuel : Nat)
    (hfuel : 4 ^ n ≤ fuel) :
    successProbability n probabilities dnf fuel =
      some (∑ f : Fin n → KeyState,
        if walletSuccess dnf (List.ofFn f) then probability probabilities (List.ofFn f)
        else 0) := by
  rw [successProbability, successProbabilityLoop_eq, enumeration_init n fuel hfuel,
    Option.map_some', zero_add, sum_states]

theorem probability_ofFn (probabilities : List ℚ) (n : Nat) (f : Fin n → KeyState) :
    probability probabilities (List.ofFn f) = ∏ i, probabilities.getD (f i).toNat 0 := by
  rw [probability_eq_prod, List.map_ofFn, List.prod_ofFn]
  rfl

theorem satisfiesWallet_mono (dnf : Wallet) (a b : List Bool)
    (hab : ∀ i, a.getD i false = true → b.getD i false = true)
    (ha : satisfiesWallet dnf a = true) : satisfiesWallet dnf b = true := by
  rw [satisfiesWallet_iff] at ha ⊢
  obtain ⟨clause, hc, h⟩ := ha
  exact ⟨clause, hc, fun i hi hci => hab i (h i hi hci)⟩

theorem owner_le_adversary (s : Scenario) (hs : ∀ st ∈ s, st ≠ KeyState.SAFE) (i : Nat)
    (h : (availability s).1.getD i false = true) : (availability s).2.getD i false = true := by
  simp only [availability, List.getD_eq_getElem?_getD, List.getElem?_map] at h ⊢
  cases hi : s[i]? with
  | none => rw [hi] at h; cases h
  | some st =>
    rw [hi] at h
    have hne := hs st (List.getElem?_mem hi)
    cases st
    · exact absurd rfl hne
    · cases h
    · rfl
    · rfl

theorem walletSuccess_of_no_safe (dnf : Wallet) (s : Scenario)
    (hs : ∀ st ∈ s, st ≠ KeyState.SAFE) : walletSuccess dnf s = false := by
  rw [walletSuccess]
  cases hown : satisfiesWallet dnf (availability s).1
  · rfl
  · have := satisfiesWallet_mono dnf _ _ (owner_le_adversary s hs) hown
    simp [this]

theorem satisfiesWallet_of_empty_clause (dnf : Wallet)
    (hclause : ∃ clause ∈ dnf, ∀ b ∈ clause, b = false) (a : List Bool) :
    satisfiesWallet dnf a = true := by
  rw [satisfiesWallet_iff]
  obtain ⟨clause, hc, hall⟩ := hclause
  refine ⟨clause, hc, ?_⟩
  intro i hi hci
  rw [List.getD_eq_getElem?_getD, List.getElem?_eq_getElem hi] at hci
  have := hall clause[i] (List.getElem_mem hi)
  simp only [Option.getD_some] at hci
  rw [this] at hci
  cases hci

theorem walletSuccess_of_empty_clause (dnf : Wallet)
    (hclause : ∃ clause ∈ dnf, ∀ b ∈ clause, b = false) (s : Scenario) :
    walletSuccess dnf s = false := by
  rw [walletSuccess, satisfiesWallet_of_empty_clause dnf hclause (availability s).2]
  simp

/-- C19: for `n >= 1` keys, any probability vector and any wallet containing an
all-false clause, `walletSuccess` is false on every scenario and the success
probability is 0; the constructor produces such a clause when its Bernoulli draws are
all false, and `perturb` produces one from an all-true clause when its draws are all
true. -/
theorem successProbability_of_empty_clause (n : Nat) (_hn : 1 ≤ n) (probabilities : List ℚ)
    (dnf : Wallet) (hclause : ∃ clause ∈ dnf, ∀ b ∈ clause, b = false)
    (fuel : Nat) (hfuel : 4 ^ n ≤ fuel) :
    (∀ s : Scenario, walletSuccess dnf s = false) ∧
    successProbability n probabilities dnf fuel = some 0 ∧
    (∀ walletSize : Nat, 1 ≤ walletSize →
      ∃ clause ∈ Wallet.construct n walletSize (fun _ _ => false), ∀ b ∈ clause, b = false) ∧
    perturb [List.replicate n true] 0 (fun _ => true) = [List.replicate n false] := by
  refine ⟨walletSuccess_of_empty_clause dnf hclause, ?_, ?_, ?_⟩
  · rw [successProbability_eq n probabilities dnf fuel hfuel]
    simp [walletSuccess_of_empty_clause dnf hclause]
  · intro walletSize hw
    refine ⟨(List.range n).map (fun _ => false), ?_, ?_⟩
    · simp only [Wallet.construct, List.mem_map, List.mem_range]
      exact ⟨0, by omega, trivial⟩
    · intro b hb
      simp only [List.mem_map] at hb
      obtain ⟨_, _, rfl⟩ := hb
      rfl
  · simp [perturb, perturbBits_true]

theorem successProbability_of_empty_clause_witness :
    1 ≤ 1 ∧ (∃ clause ∈ ([[true], [false]] : Wallet), ∀ b ∈ clause, b = false) ∧ 4 ^ 1 ≤ 4 ∧
    ((∀ s : Scenario, walletSuccess [[true], [false]] s = false) ∧
    successProbability 1 [7 / 10, 1 / 10, 1 / 5, 0] [[true], [false]] 4 = some 0 ∧
    (∀ walletSize : Nat, 1 ≤ walletSize →
      ∃ clause ∈ Wallet.construct 1 walletSize (fun _ _ => false), ∀ b ∈ clause, b = false) ∧
    perturb [List.replicate 1 true] 0 (fun _ => true) = [List.replicate 1 false]) :=
  ⟨by decide, by decide, by decide,
   successProbability_of_empty_clause 1 (by decide) [7 / 10, 1 / 10, 1 / 5, 0]
     [[true], [false]] (by decide) 4 (by decide)⟩

theorem getD_nonneg (probabilities : List ℚ) (hnn : ∀ p ∈ probabilities, 0 ≤ p) (i : Nat) :
    0 ≤ probabilities.getD i 0 := by
  rw [List.getD_eq_getElem?_getD]
  cases h : probabilities[i]? with
  | none => exact le_refl 0
  | some p => exact hnn p (List.getElem?_mem h)

theorem sum_getD_four (probabilities : List ℚ) (hlen : probabilities.length = 4) :
    probabilities.getD KeyState.SAFE.toNat 0 + probabilities.getD KeyState.LOSS.toNat 0
      + probabilities.getD KeyState.LEAK.toNat 0 + probabilities.getD KeyState.THEFT.toNat 0
      = probabilities.sum := by
  match probabilities, hlen with
  | [a, b, c, d], _ =>
    simp only [List.sum_cons, List.sum_nil, add_zero, KeyState.toNat, List.getD_cons_zero,
      List.getD_cons_succ]
    ring

/-- C18 (as amended): in a scenario with no SAFE key the owner's availability is
contained key by key in the adversary's, `satisfiesWallet` is monotone in the
availability vector, and so `walletSuccess` is false for every wallet; consequently,
for a 4-entry vector of non-negative probabilities summing to 1, with probabilities
and scores taken as exact rationals, the success probability of every wallet is at
most `1 - (1 - p_SAFE) ^ n`. -/
theorem successProbability_le_some_safe (n : Nat) (probabilities : List ℚ) (dnf : Wallet)
    (fuel : Nat) (hlen : probabilities.length = 4) (hsum : probabilities.sum = 1)
    (hnn : ∀ p ∈ probabilities, 0 ≤ p) (hfuel : 4 ^ n ≤ fuel) :
    (∀ s : Scenario, (∀ st ∈ s, st ≠ KeyState.SAFE) →
      (∀ i : Nat, (availability s).1[i]? = some true → (availability s).2[i]? = some true) ∧
      walletSuccess dnf s = false) ∧
    (∀ a b : List Bool, (∀ i : Nat, a[i]? = some true → b[i]? = some true) →
      satisfiesWallet dnf a = true → satisfiesWallet dnf b = true) ∧
    ∃ sp : ℚ, successProbability n probabilities dnf fuel = some sp ∧
      sp ≤ 1 - (1 - probabilities.getD KeyState.SAFE.toNat 0) ^ n := by
  have hgetD : ∀ (l : List Bool) (i : Nat), l.getD i false = true ↔ l[i]? = some true := by
    intro l i
    rw [List.getD_eq_getElem?_getD]
    cases l[i]? with
    | none => simp
    | some b => simp
  refine ⟨?_, ?_, ?_⟩
  · intro s hs
    refine ⟨?_, walletSuccess_of_no_safe dnf s hs⟩
    intro i hi
    exact (hgetD _ i).mp (owner_le_adversary s hs i ((hgetD _ i).mpr hi))
  · intro a b hab ha
    exact satisfiesWallet_mono dnf a b
      (fun i hi => (hgetD b i).mpr (hab i ((hgetD a i).mp hi))) ha
  · refine ⟨_, successProbability_eq n probabilities dnf fuel hfuel, ?_⟩
    have hp : ∀ d : KeyState, 0 ≤ probabilities.getD d.toNat 0 :=
      fun d => getD_nonneg probabilities hnn d.toNat
    have hterm : ∀ f : Fin n → KeyState,
        (if walletSuccess dnf (List.ofFn f) then probability probabilities (List.ofFn f) else 0)
          + ∏ i, (if f i = KeyState.SAFE then 0 else probabilities.getD (f i).toNat 0)
          ≤ ∏ i, probabilities.getD (f i).toNat 0 := by
      intro f
      rw [probability_ofFn]
      have hprod : 0 ≤ ∏ i, probabilities.getD (f i).toNat 0 :=
        Finset.prod_nonneg (fun i _ => hp (f i))
      by_cases hsafe : ∃ i, f i = KeyState.SAFE
      · obtain ⟨i, hi⟩ := hsafe
        have hzero : ∏ j, (if f j = KeyState.SAFE then 0
            else probabilities.getD (f j).toNat 0) = 0 :=
          Finset.prod_eq_zero (Finset.mem_univ i) (if_pos hi)
        rw [hzero, add_zero]
        split
        · exact le_refl _
        · exact hprod
      · have hnone : ∀ i, f i ≠ KeyState.SAFE := fun i hi => hsafe ⟨i, hi⟩
        have hw : walletSuccess dnf (List.ofFn f) = false := by
          apply walletSuccess_of_no_safe
          intro st hst
          obtain ⟨i, rfl⟩ := (List.mem_ofFn f st).mp hst
          exact hnone i
        have hq : ∏ i, (if f i = KeyState.SAFE then 0 else probabilities.getD (f i).toNat 0)
            = ∏ i, probabilities.getD (f i).toNat 0 :=
          Finset.prod_congr rfl (fun i _ => if_neg (hnone i))
        rw [hw, hq]
        simp
    have hall : ∑ f : Fin n → KeyState, ∏ i, probabilities.getD (f i).toNat 0 = 1 := by
      rw [← Fintype.sum_pow (fun d : KeyState => probabilities.getD d.toNat 0) n, sum_keyState,
        sum_getD_four probabilities hlen, hsum, one_pow]
    have hrest : ∑ f : Fin n → KeyState,
        ∏ i, (if f i = KeyState.SAFE then 0 else probabilities.getD (f i).toNat 0)
        = (1 - probabilities.getD KeyState.SAFE.toNat 0) ^ n := by
      rw [← Fintype.sum_pow
        (fun d : KeyState => if d = KeyState.SAFE then 0 else probabilities.getD d.toNat 0) n,
        sum_keyState]
      have h4 := sum_getD_four probabilities hlen
      rw [hsum] at h4
      congr 1
      simp only [if_true, reduceCtorEq, if_false]
      linarith
    have hsumle := Finset.sum_le_sum (fun f (_ : f ∈ Finset.univ) => hterm f)
    rw [Finset.sum_add_distrib, hall, hrest] at hsumle
    linarith

theorem successProbability_le_some_safe_witness :
    ([7 / 10, 1 / 10, 1 / 5, 0] : List ℚ).length = 4 ∧
    ([7 / 10, 1 / 10, 1 / 5, 0] : List ℚ).sum = 1 ∧
    (∀ p ∈ ([7 / 10, 1 / 10, 1 / 5, 0] : List ℚ), 0 ≤ p) ∧ 4 ^ 1 ≤ 4 ∧
    ((∀ s : Scenario, (∀ st ∈ s, st ≠ KeyState.SAFE) →
      (∀ i : Nat, (availability s).1[i]? = some true → (availability s).2[i]? = some true) ∧
      walletSuccess [[true]] s = false) ∧
    (∀ a b : List Bool, (∀ i : Nat, a[i]? = some true → b[i]? = some true) →
      satisfiesWallet [[true]] a = true → satisfiesWallet [[true]] b = true) ∧
    ∃ sp : ℚ, successProbability 1 [7 / 10, 1 / 10, 1 / 5, 0] [[true]] 4 = some sp ∧
      sp ≤ 1 - (1 - ([7 / 10, 1 / 10, 1 / 5, 0] : List ℚ).getD KeyState.SAFE.toNat 0) ^ 1) :=
  ⟨rfl, by norm_num, by intro p hp; simp at hp; rcases hp with h | h | h | h <;> rw [h] <;> norm_num,
   by decide,
   successProbability_le_some_safe 1 [7 / 10, 1 / 10, 1 / 5, 0] [[true]] 4 rfl (by norm_num)
     (by intro p hp; simp at hp; rcases hp with h | h | h | h <;> rw [h] <;> norm_num)
     (by decide)⟩

/-- C18 (as stated) fails on the binary32 arithmetic of the program. With 3 keys, the
probability vector {0.7f, 0.3f, 0, 0}, whose entries are the floats 11744051 / 2^24
and 10066330 / 2^25 and sum to exactly 1, and the wallet with the clauses [1,0,0],
[0,1,0], [0,0,1], `successProbability` returns the float 16324233 / 2^24, which is
greater than `1 - (1 - p_SAFE) ^ 3`. -/
theorem successProbability_float_counterexample :
    f32Value (11744051 * 2 ^ 125) = 11744051 / 2 ^ 24 ∧
    f32Value (5033165 * 2 ^ 125) = 10066330 / 2 ^ 25 ∧
    f32Value (11744051 * 2 ^ 125) + f32Value (5033165 * 2 ^ 125) + f32Value 0 + f32Value 0
      = 1 ∧
    addF32 (addF32 (addF32 (11744051 * 2 ^ 125) (5033165 * 2 ^ 125)) 0) 0 = f32One ∧
    successProbabilityF32 3 [11744051 * 2 ^ 125, 5033165 * 2 ^ 125, 0, 0]
      [[true, false, false], [false, true, false], [false, false, true]] 64
      = some (16324233 * 2 ^ 125) ∧
    f32Value (16324233 * 2 ^ 125) = 16324233 / 2 ^ 24 ∧
    1 - (1 - f32Value (11744051 * 2 ^ 125)) ^ 3 < f32Value (16324233 * 2 ^ 125) := by
  refine ⟨?_, ?_, ?_, ?_, ?_, ?_, ?_⟩
  · norm_num [f32Value]
  · norm_num [f32Value]
  · norm_num [f32Value]
  · decide!
  · decide!
  · norm_num [f32Value]
  · norm_num [f32Value]

/-! ## The sampled score -/

theorem base4_zero (n : Nat) : base4 n 0 = List.replicate n KeyState.SAFE := by
  induction n with
  | zero => rfl
  | succ n ih =>
    rw [base4, Nat.zero_div, ih, List.replicate_succ']
    rfl

theorem length_base4 (n k : Nat) : (base4 n k).length = n := by
  induction n generalizing k with
  | zero => rfl
  | succ n ih => simp [base4, ih]

theorem value_base4 (n k : Nat) : value (base4 n k) = k % 4 ^ n := by
  induction n generalizing k with
  | zero => simp [base4, value, Nat.mod_one]
  | succ n ih =>
    rw [base4, value_concat, ih, toNat_cast _ (Nat.mod_lt _ (by decide)), pow_succ,
      Nat.mul_comm (4 ^ n) 4, Nat.mod_mul]
    omega

theorem base4_eq_stateAfter (n k : Nat) :
    base4 n k = stateAfter (Scenario.init n) k := by
  obtain ⟨h1, h2⟩ := stateAfter_spec n k
  exact value_injective n _ _ (length_base4 n k) h1 (by rw [value_base4, h2])

/-- From keys that are all SAFE the loop of `randomize` writes the base-4 digits of
the draw: the digits it does not reach are zero, and the keys there are SAFE. -/
theorem randomizeLoop_allSafe : ∀ (m k : Nat) (suf : Scenario), k < 4 ^ m →
    randomizeLoop m k (List.replicate m KeyState.SAFE ++ suf) = some (base4 m k ++ suf) := by
  intro m
  induction m with
  | zero =>
    intro k suf hk
    have hk0 : k = 0 := by simpa using hk
    subst hk0
    simp [randomizeLoop, base4]
  | succ m ih =>
    intro k suf hk
    by_cases hk0 : k = 0
    · subst hk0
      rw [randomizeLoop, if_pos rfl, base4_zero]
    · rw [randomizeLoop, if_neg hk0]
      have hset : (List.replicate (m + 1) KeyState.SAFE ++ suf).set m
          (KeyState.cast (k % 4)) =
          List.replicate m KeyState.SAFE ++ (KeyState.cast (k % 4) :: suf) := by
        rw [List.replicate_succ', List.append_assoc]
        have hlen : (List.replicate m KeyState.SAFE).length = m := by simp
        conv_lhs => rw [← hlen]
        simp
      simp only [hset]
      have hk4 : k / 4 < 4 ^ m := by
        rw [pow_succ] at hk
        omega
      rw [ih (k / 4) _ hk4, base4]
      simp

theorem randomize_init (n k : Nat) (hk : k < 4 ^ n) :
    randomize (Scenario.init n) k = some (base4 n k) := by
  have h := randomizeLoop_allSafe n k [] hk
  rw [List.append_nil, List.append_nil] at h
  rw [randomize, length_init]
  exact h

theorem scenarioDrawBound_of_le (n : Nat) (hn : n ≤ 15) :
    scenarioDrawBound n = some (4 ^ n - 1) := by
  have hpow : 4 ^ n ≤ 4 ^ 15 := Nat.pow_le_pow_right (by decide) hn
  have h15 : (4 : Nat) ^ 15 = 1073741824 := by norm_num
  rw [scenarioDrawBound, if_pos (by omega)]

/-- From 16 keys on, `4 ^ numberOfKeys - 1` does not fit an `int`: the call of
`uniformDistribution` in `randomize` has no defined draw. -/
theorem scenarioDrawBound_of_ge (n : Nat) (hn : 16 ≤ n) : scenarioDrawBound n = none := by
  have hpow : 4 ^ 16 ≤ 4 ^ n := Nat.pow_le_pow_right (by decide) hn
  have h16 : (4 : Nat) ^ 16 = 4294967296 := by norm_num
  rw [scenarioDrawBound, if_neg (by omega)]

theorem randomizeIn_init (n k : Nat) (hn : n ≤ 15) (hk : k < 4 ^ n) :
    randomizeIn n (Scenario.init n) k = some (base4 n k) := by
  rw [randomizeIn, scenarioDrawBound_of_le n hn]
  simp only
  rw [if_pos (by omega), randomize_init n k hk]

theorem successHeuristic_one (n : Nat) (probabilities : List ℚ) (dnf : Wallet) (k : Nat)
    (hn : n ≤ 15) (hk : k < 4 ^ n) :
    successHeuristic n probabilities dnf 1 (fun _ => k) =
      some (if walletSuccess dnf (stateAfter (Scenario.init n) k)
        then probability probabilities (stateAfter (Scenario.init n) k) else 0) := by
  rw [successHeuristic, successHeuristicLoop, randomizeIn_init n k hn hk,
    base4_eq_stateAfter n k]
  simp [successHeuristicLoop]

/-- C13 (as amended): for `1 <= n <= 15` keys (the key counts for which the bound
`4 ^ n - 1` of the draw fits an `int`), with probabilities and scores taken as exact
rationals, the score added by the first draw of `successHeuristic` (its whole value
when the sample size is 1) is defined for every draw in `[0, 4 ^ n)`, and its average
over those draws is the success probability divided by `4 ^ n`. -/
theorem successHeuristic_first_draw (n : Nat) (_hn : 1 ≤ n) (hn15 : n ≤ 15)
    (probabilities : List ℚ) (dnf : Wallet) (fuel : Nat) (hfuel : 4 ^ n ≤ fuel) :
    ∃ sp : ℚ, successProbability n probabilities dnf fuel = some sp ∧
      (∀ k : Nat, k < 4 ^ n →
        ∃ v : ℚ, successHeuristic n probabilities dnf 1 (fun _ => k) = some v) ∧
      (∑ k ∈ Finset.range (4 ^ n),
        (successHeuristic n probabilities dnf 1 (fun _ => k)).getD 0) / 4 ^ n
        = 1 * sp / 4 ^ n := by
  refine ⟨_, successProbability_eq n probabilities dnf fuel hfuel, ?_, ?_⟩
  · intro k hk
    exact ⟨_, successHeuristic_one n probabilities dnf k hn15 hk⟩
  · rw [one_mul]
    congr 1
    have hrange : (List.range (4 ^ n)).toFinset = Finset.range (4 ^ n) := by
      ext k
      simp
    rw [← sum_states n (fun t => if walletSuccess dnf t then probability probabilities t else 0),
      List.map_map, ← List.sum_toFinset _ (List.nodup_range _), hrange]
    apply Finset.sum_congr rfl
    intro k hk
    rw [successHeuristic_one n probabilities dnf k hn15 (Finset.mem_range.mp hk)]
    rfl

theorem successHeuristic_first_draw_witness :
    1 ≤ 1 ∧ 1 ≤ 15 ∧ 4 ^ 1 ≤ 4 ∧
    ∃ sp : ℚ, successProbability 1 [7 / 10, 1 / 10, 1 / 5, 0] [[true]] 4 = some sp ∧
      (∀ k : Nat, k < 4 ^ 1 →
        ∃ v : ℚ, successHeuristic 1 [7 / 10, 1 / 10, 1 / 5, 0] [[true]] 1 (fun _ => k)
          = some v) ∧
      (∑ k ∈ Finset.range (4 ^ 1),
        (successHeuristic 1 [7 / 10, 1 / 10, 1 / 5, 0] [[true]] 1 (fun _ => k)).getD 0) / 4 ^ 1
        = 1 * sp / 4 ^ 1 :=
  ⟨by decide, by decide, by decide,
   successHeuristic_first_draw 1 (by decide) (by decide) [7 / 10, 1 / 10, 1 / 5, 0] [[true]] 4
     (by decide)⟩

theorem probability_certain_safe (s : Scenario) :
    probability [1, 0, 0, 0] s = 0 ∨ probability [1, 0, 0, 0] s = 1 := by
  rw [probability_eq_prod]
  induction s with
  | nil => right; simp
  | cons st rest ih =>
    rw [List.map_cons, List.prod_cons]
    cases st
    · rcases ih with h | h
      · left; rw [h]; simp
      · right; rw [h]; simp [KeyState.toNat]
    all_goals left; simp [KeyState.toNat]

theorem successHeuristicLoop_le (n : Nat) (dnf : Wallet) (draws : Nat → Nat) :
    ∀ (todo i : Nat) (score : ℚ) (s : Scenario), 0 ≤ score →
      (successHeuristicLoop n [1, 0, 0, 0] dnf draws todo i score s).getD 0 ≤ score + todo := by
  intro todo
  induction todo with
  | zero =>
    intro i score s _
    simp [successHeuristicLoop]
  | succ todo ih =>
    intro i score s hscore
    rw [successHeuristicLoop]
    cases hr : randomizeIn n s (draws i) with
    | none =>
      simp only [Option.getD_none]
      have : (0 : ℚ) ≤ ((todo + 1 : Nat) : ℚ) := Nat.cast_nonneg _
      linarith
    | some drawn =>
      simp only
      have hprob := probability_certain_safe drawn
      push_cast
      split
      · have h := ih (i + 1) (score + probability [1, 0, 0, 0] drawn) drawn
          (by rcases hprob with h | h <;> rw [h] <;> linarith)
        rcases hprob with h2 | h2 <;> rw [h2] at h ⊢ <;> linarith
      · have h := ih (i + 1) score drawn hscore
        linarith

theorem successHeuristicLoop_ones (draws : Nat → Nat) :
    ∀ (todo i : Nat) (s : Scenario), s.length = 1 →
      (∀ j, i ≤ j → j < i + todo → draws j = 1) →
      successHeuristicLoop 1 [1, 0, 0, 0] [[true]] draws todo i 0 s = some 0 := by
  intro todo
  induction todo with
  | zero => intro i s _ _; rfl
  | succ todo ih =>
    intro i s hs hd
    have hr : randomizeIn 1 s (draws i) = some [KeyState.LOSS] := by
      rw [hd i (Nat.le_refl i) (by omega), randomizeIn, scenarioDrawBound_of_le 1 (by decide)]
      match s, hs with
      | [st], _ => rfl
    rw [successHeuristicLoop, hr]
    have hw : walletSuccess [[true]] [KeyState.LOSS] = false := by decide
    simp only [hw]
    exact ih (i + 1) [KeyState.LOSS] rfl (fun j h1 h2 => hd j (by omega) (by omega))

/-- With one key, probabilities [1, 0, 0, 0] and the wallet whose only clause requires
that key, the average of `successHeuristic` over all sequences of `m >= 1` draws is
below `m`: no sequence scores more than `m`, and the sequence of draws all equal to 1
scores 0. -/
theorem successHeuristic_average_lt (m : Nat) (hm : 1 ≤ m) :
    (∑ d : Fin m → Fin 4,
      (successHeuristic 1 [1, 0, 0, 0] [[true]] m
        (fun i => if h : i < m then (d ⟨i, h⟩).val else 0)).getD 0) / 4 ^ m < m := by
  have hle : ∀ d : Fin m → Fin 4,
      (successHeuristic 1 [1, 0, 0, 0] [[true]] m
        (fun i => if h : i < m then (d ⟨i, h⟩).val else 0)).getD 0 ≤ (m : ℚ) := by
    intro d
    have h := successHeuristicLoop_le 1 [[true]]
      (fun i => if h : i < m then (d ⟨i, h⟩).val else 0) m 0 0 (Scenario.init 1) (le_refl 0)
    rw [zero_add] at h
    exact h
  have hlt : (successHeuristic 1 [1, 0, 0, 0] [[true]] m
      (fun i => if h : i < m then ((fun _ => 1 : Fin m → Fin 4) ⟨i, h⟩).val else 0)).getD 0
      < (m : ℚ) := by
    rw [successHeuristic, successHeuristicLoop_ones _ m 0 (Scenario.init 1) rfl]
    · simp only [Option.getD_some]
      exact_mod_cast hm
    · intro j _ hj
      have hj2 : j < m := by omega
      simp [hj2]
  have hsum := Finset.sum_lt_sum (fun d (_ : d ∈ Finset.univ) => hle d)
    ⟨(fun _ => 1 : Fin m → Fin 4), Finset.mem_univ _, hlt⟩
  rw [Finset.sum_const, Finset.card_univ, Fintype.card_fun, Fintype.card_fin, Fintype.card_fin,
    nsmul_eq_mul] at hsum
  push_cast at hsum
  rw [div_lt_iff₀ (by positivity)]
  linarith

/-- C13 (as stated) fails. With one key, probabilities [0.7, 0.1, 0.2, 0], the wallet
whose only clause requires the key and a sample of one draw, the four draws score
0.7, 0, 0, 0: the average is 7/40, not 1 × 7/10. With the sample size 1000 that the
context sets for one key and probabilities [1, 0, 0, 0], the success probability is 1
and the average over all draw sequences is below 1000 × 1. -/
theorem successHeuristic_expectation_counterexample :
    (successProbability 1 [7 / 10, 1 / 10, 1 / 5, 0] [[true]] 4 = some (7 / 10) ∧
     (∑ k ∈ Finset.range (4 ^ 1),
       (successHeuristic 1 [7 / 10, 1 / 10, 1 / 5, 0] [[true]] 1 (fun _ => k)).getD 0) / 4 ^ 1
       = 7 / 40 ∧
     (7 / 40 : ℚ) ≠ 1 * (7 / 10)) ∧
    (successProbability 1 [1, 0, 0, 0] [[true]] 4 = some 1 ∧
     (∑ d : Fin 1000 → Fin 4,
       (successHeuristic 1 [1, 0, 0, 0] [[true]] 1000
         (fun i => if h : i < 1000 then (d ⟨i, h⟩).val else 0)).getD 0) / 4 ^ 1000
       < 1000 * 1) := by
  have h0 : successHeuristic 1 [7 / 10, 1 / 10, 1 / 5, 0] [[true]] 1 (fun _ => 0)
      = some (7 / 10) := by
    simp [successHeuristic, successHeuristicLoop, randomizeIn, scenarioDrawBound, randomize,
      randomizeLoop, Scenario.init, walletSuccess, availability, satisfiesWallet, clauseLoop,
      probability, KeyState.toNat]
  have h1 : successHeuristic 1 [7 / 10, 1 / 10, 1 / 5, 0] [[true]] 1 (fun _ => 1)
      = some 0 := by
    decide
  have h2 : successHeuristic 1 [7 / 10, 1 / 10, 1 / 5, 0] [[true]] 1 (fun _ => 2)
      = some 0 := by
    decide
  have h3 : successHeuristic 1 [7 / 10, 1 / 10, 1 / 5, 0] [[true]] 1 (fun _ => 3)
      = some 0 := by
    decide
  have hsp : successProbability 1 [7 / 10, 1 / 10, 1 / 5, 0] [[true]] 4 = some (7 / 10) := by
    simp [successProbability, successProbabilityLoop, nextScenario, nextScenarioLoop,
      Scenario.init, walletSuccess, availability, satisfiesWallet, clauseLoop, probability,
      KeyState.toNat, KeyState.cast]
  have hsp1 : successProbability 1 [1, 0, 0, 0] [[true]] 4 = some 1 := by
    simp [successProbability, successProbabilityLoop, nextScenario, nextScenarioLoop,
      Scenario.init, walletSuccess, availability, satisfiesWallet, clauseLoop, probability,
      KeyState.toNat, KeyState.cast]
  refine ⟨⟨hsp, ?_, by norm_num⟩, hsp1, ?_⟩
  · simp only [pow_one, Finset.sum_range_succ, Finset.sum_range_zero, h0, h1, h2, h3,
      Option.getD_some]
    norm_num
  · have h := successHeuristic_average_lt 1000 (by decide)
    simpa using h

/-! ## The search loop: tracking the best score -/

theorem getFittestLoopAt_const {C : Type} (fitness : C → ℚ) :
    ∀ (group : List (Option C)) (j : Nat) (bestScore : ℚ) (cur : Option C),
      getFittestLoopAt (fun _ => fitness) group j bestScore cur =
        getFittestLoop fitness group bestScore cur := by
  intro group
  induction group with
  | nil => intro j bestScore cur; rfl
  | cons w rest ih =>
    intro j bestScore cur
    cases w with
    | none => simp only [getFittestLoopAt, getFittestLoop, ih]
    | some c => simp only [getFittestLoopAt, getFittestLoop, ih]

/-- For a fitness that does not depend on the call, the generation with numbered
fitness calls is the generation `generation`. -/
theorem generationAt_const {C : Type} (cfg : Config) (fitness : C → ℚ)
    (perturbFn : Nat → C → ℚ → C) (shuffle : Nat → List Nat) (st : RunState C) :
    generationAt cfg (fun _ _ => fitness) perturbFn shuffle st =
      generation cfg fitness perturbFn shuffle st := by
  have hfit : ∀ group : List (Option C),
      getFittestAt (fun _ => fitness) group = getFittest fitness group :=
    fun group => getFittestLoopAt_const fitness group 0 0 none
  simp only [generationAt, generation, selectedSlotAt, selectedSlot, hfit]

/-- C11: `run` starts with `best_score = 0` and `delta = 0`; in every generation
that completes, whatever each call of the fitness function returns, `best_score`
does not decrease; it changes only when the generation's fittest score strictly
exceeds it, and then it takes that score and `delta` is reset to 0; otherwise it
keeps its value and `delta` increases by exactly 1. -/
theorem best_score_nondecreasing {C : Type} (cfg : Config) (fitness : Nat → Nat → C → ℚ)
    (perturbFn : Nat → C → ℚ → C) (shuffle : Nat → List Nat) (population : List (Option C))
    (bestChromosome : C) (st st2 : RunState C)
    (hgen : generationAt cfg fitness perturbFn shuffle st = some st2) :
    (RunState.init population bestChromosome).best_score = 0 ∧
    (RunState.init population bestChromosome).delta = 0 ∧
    st.best_score ≤ st2.best_score ∧
    (st2.best_score ≠ st.best_score → generationScoreAt fitness st > st.best_score) ∧
    (generationScoreAt fitness st > st.best_score →
      st2.best_score = generationScoreAt fitness st ∧ st2.delta = 0) ∧
    (¬ generationScoreAt fitness st > st.best_score →
      st2.best_score = st.best_score ∧ st2.delta = st.delta + 1) := by
  refine ⟨rfl, rfl, ?_⟩
  unfold generationAt at hgen
  unfold generationScoreAt
  simp only at hgen
  by_cases hs : (match getFittestAt (fitness 0) st.population with
      | some c => fitness 1 0 c
      | none => 0) > st.best_score
  · rw [if_pos hs] at hgen
    cases hfit : getFittestAt (fitness 0) st.population with
    | none =>
      rw [hfit] at hgen
      simp at hgen
    | some c =>
      rw [hfit] at hgen hs
      simp only [Option.map_some'] at hgen
      cases helite : getFittestAt (fitness 2) st.population with
      | none =>
        rw [helite] at hgen
        simp at hgen
      | some elite =>
        rw [helite] at hgen
        simp only [Option.some.injEq] at hgen
        subst hgen
        exact ⟨le_of_lt hs, fun _ => hs, fun _ => ⟨rfl, rfl⟩, fun h => absurd hs h⟩
  · rw [if_neg hs] at hgen
    simp only at hgen
    cases helite : getFittestAt (fitness 2) st.population with
    | none =>
      rw [helite] at hgen
      simp at hgen
    | some elite =>
      rw [helite] at hgen
      simp only [Option.some.injEq] at hgen
      subst hgen
      exact ⟨le_refl _, fun h => absurd rfl h, fun h => absurd h hs, fun _ => ⟨rfl, rfl⟩⟩

theorem best_score_nondecreasing_witness :
    generationAt (Config.mk 1 1 1 0) (fun site _ (_ : Nat) => if site = 1 then (2 : ℚ) else 1)
      (fun _ c _ => c) (fun _ => [0]) (RunState.init [some 7] 0) =
      some (RunState.mk [some 7] 7 2 0) ∧
    ((RunState.init [some 7] (0 : Nat)).best_score = 0 ∧
    (RunState.init [some 7] (0 : Nat)).delta = 0 ∧
    (RunState.init [some 7] (0 : Nat)).best_score ≤ (RunState.mk [some 7] (7 : Nat) 2 0).best_score ∧
    ((RunState.mk [some 7] (7 : Nat) 2 0).best_score ≠ (RunState.init [some 7] (0 : Nat)).best_score →
      generationScoreAt (fun site _ (_ : Nat) => if site = 1 then (2 : ℚ) else 1)
        (RunState.init [some 7] 0) > (RunState.init [some 7] (0 : Nat)).best_score) ∧
    (generationScoreAt (fun site _ (_ : Nat) => if site = 1 then (2 : ℚ) else 1)
        (RunState.init [some 7] 0) > (RunState.init [some 7] (0 : Nat)).best_score →
      (RunState.mk [some 7] (7 : Nat) 2 0).best_score =
        generationScoreAt (fun site _ (_ : Nat) => if site = 1 then (2 : ℚ) else 1)
          (RunState.init [some 7] 0) ∧
      (RunState.mk [some 7] (7 : Nat) 2 0).delta = 0) ∧
    (¬ generationScoreAt (fun site _ (_ : Nat) => if site = 1 then (2 : ℚ) else 1)
        (RunState.init [some 7] 0) > (RunState.init [some 7] (0 : Nat)).best_score →
      (RunState.mk [some 7] (7 : Nat) 2 0).best_score =
        (RunState.init [some 7] (0 : Nat)).best_score ∧
      (RunState.mk [some 7] (7 : Nat) 2 0).delta = (RunState.init [some 7] (0 : Nat)).delta + 1)) :=
  ⟨rfl,
   best_score_nondecreasing (Config.mk 1 1 1 0)
     (fun site _ (_ : Nat) => if site = 1 then (2 : ℚ) else 1) (fun _ c _ => c) (fun _ => [0])
     [some 7] 0 (RunState.init [some 7] 0) (RunState.mk [some 7] 7 2 0) rfl⟩

/-! ## The search loop: elitism and the returned solution -/

theorem getFittest_of_pos {C : Type} (fitness : C → ℚ) (group : List (Option C))
    (hpos : ∃ d, some d ∈ group ∧ 0 < fitness d) :
    ∃ c, getFittest fitness group = some c ∧ some c ∈ group ∧ 0 < fitness c ∧
      ∀ d, some d ∈ group → fitness d ≤ fitness c := by
  obtain ⟨i, c, hres, hi, hlt, hmax, _⟩ :=
    getFittestLoop_of_lt fitness group 0 none (le_refl 0) hpos
  refine ⟨c, hres, List.getElem?_mem hi, hlt, ?_⟩
  intro d hd
  obtain ⟨j, hj⟩ := List.mem_iff_getElem?.mp hd
  exact hmax j d hj

/-- A generation on a population with a member of positive fitness completes: slot 0
of the new population is the fittest, and the tracked best follows the comparison of
its fitness with `best_score`. -/
theorem generation_of_pos {C : Type} (cfg : Config) (fitness : C → ℚ)
    (perturbFn : Nat → C → ℚ → C) (shuffle : Nat → List Nat) (st : RunState C)
    (hpos : ∃ d, some d ∈ st.population ∧ 0 < fitness d) :
    ∃ (elite : C) (st2 : RunState C), getFittest fitness st.population = some elite ∧
      generation cfg fitness perturbFn shuffle st = some st2 ∧
      0 < fitness elite ∧ (∀ d, some d ∈ st.population → fitness d ≤ fitness elite) ∧
      st2.population = some elite :: (List.range (cfg.populationSize - 1)).map
        (fun j => selectedSlot cfg fitness perturbFn shuffle st.population (j + 1)) ∧
      (st.best_score < fitness elite →
        st2.bestChromosome = elite ∧ st2.best_score = fitness elite ∧ st2.delta = 0) ∧
      (¬ st.best_score < fitness elite →
        st2.bestChromosome = st.bestChromosome ∧ st2.best_score = st.best_score ∧
        st2.delta = st.delta + 1) := by
  obtain ⟨elite, helite, _, hlt, hmax⟩ := getFittest_of_pos fitness st.population hpos
  by_cases h : st.best_score < fitness elite
  · refine ⟨elite, RunState.mk (some elite :: (List.range (cfg.populationSize - 1)).map
        (fun j => selectedSlot cfg fitness perturbFn shuffle st.population (j + 1)))
        elite (fitness elite) 0, helite, ?_, hlt, hmax, rfl, fun _ => ⟨rfl, rfl, rfl⟩,
      fun hn => absurd h hn⟩
    simp only [generation, helite, gt_iff_lt, h, if_true, Option.map_some']
  · refine ⟨elite, RunState.mk (some elite :: (List.range (cfg.populationSize - 1)).map
        (fun j => selectedSlot cfg fitness perturbFn shuffle st.population (j + 1)))
        st.bestChromosome st.best_score (st.delta + 1), helite, ?_, hlt, hmax, rfl,
      fun hy => absurd hy h, fun _ => ⟨rfl, rfl, rfl⟩⟩
    simp only [generation, helite, gt_iff_lt, h, if_false]

theorem afterGenerations_succ {C : Type} (cfg : Config) (fitness : C → ℚ)
    (perturbFn : Nat → Nat → C → ℚ → C) (shuffle : Nat → Nat → List Nat)
    (population : List (Option C)) (bestChromosome : C) (k : Nat) (st : RunState C)
    (h : afterGenerations cfg fitness perturbFn shuffle population bestChromosome k = some st) :
    afterGenerations cfg fitness perturbFn shuffle population bestChromosome (k + 1) =
      generation cfg fitness (perturbFn k) (shuffle k) st := by
  rw [afterGenerations, h]

/-- From a population with a member of positive fitness every generation completes,
and every state keeps: a member of positive fitness, a member at least as fit as
`best_score`, and, once a generation has run, a best chromosome whose fitness is the
positive `best_score`. -/
theorem afterGenerations_inv {C : Type} (cfg : Config) (fitness : C → ℚ)
    (perturbFn : Nat → Nat → C → ℚ → C) (shuffle : Nat → Nat → List Nat)
    (population : List (Option C)) (bestChromosome : C)
    (hpos : ∃ d, some d ∈ population ∧ 0 < fitness d) (k : Nat) :
    ∃ st : RunState C,
      afterGenerations cfg fitness perturbFn shuffle population bestChromosome k = some st ∧
      (∃ d, some d ∈ st.population ∧ 0 < fitness d) ∧
      (∃ c, some c ∈ st.population ∧ st.best_score ≤ fitness c) ∧
      (st.best_score = 0 ∨ fitness st.bestChromosome = st.best_score) ∧
      (1 ≤ k → 0 < st.best_score ∧ fitness st.bestChromosome = st.best_score) := by
  induction k with
  | zero =>
    refine ⟨RunState.init population bestChromosome, rfl, hpos, ?_, Or.inl rfl, ?_⟩
    · obtain ⟨d, hd, hlt⟩ := hpos
      exact ⟨d, hd, le_of_lt hlt⟩
    · intro h
      omega
  | succ k ih =>
    obtain ⟨st, hst, hp, ⟨c0, hc0, hle0⟩, hgood, _⟩ := ih
    obtain ⟨elite, st2, _, hgen, hlt, hmax, hpop, himp, hkeep⟩ :=
      generation_of_pos cfg fitness (perturbFn k) (shuffle k) st hp
    have hmem : some elite ∈ st2.population := by
      rw [hpop]
      exact List.mem_cons_self _ _
    have hfinal : 0 < st2.best_score ∧ fitness st2.bestChromosome = st2.best_score := by
      by_cases h : st.best_score < fitness elite
      · obtain ⟨h1, h2, _⟩ := himp h
        rw [h1, h2]
        exact ⟨hlt, rfl⟩
      · obtain ⟨h1, h2, _⟩ := hkeep h
        have hposbest : 0 < st.best_score := lt_of_lt_of_le hlt (not_lt.mp h)
        rw [h1, h2]
        rcases hgood with h0 | hg
        · rw [h0] at hposbest
          exact absurd hposbest (lt_irrefl 0)
        · exact ⟨hposbest, hg⟩
    refine ⟨st2, ?_, ⟨elite, hmem, hlt⟩, ⟨elite, hmem, ?_⟩, Or.inr hfinal.2, fun _ => hfinal⟩
    · rw [afterGenerations_succ cfg fitness perturbFn shuffle population bestChromosome k st hst]
      exact hgen
    · by_cases h : st.best_score < fitness elite
      · rw [(himp h).2.1]
      · rw [(hkeep h).2.1]
        exact le_trans hle0 (hmax c0 hc0)

/-- One step of the trace: the facts of `generation_of_pos` between the states after
`k` and after `k + 1` generations. -/
theorem afterGenerations_step {C : Type} (cfg : Config) (fitness : C → ℚ)
    (perturbFn : Nat → Nat → C → ℚ → C) (shuffle : Nat → Nat → List Nat)
    (population : List (Option C)) (bestChromosome : C)
    (hpos : ∃ d, some d ∈ population ∧ 0 < fitness d) (k : Nat) (st st2 : RunState C)
    (hst : afterGenerations cfg fitness perturbFn shuffle population bestChromosome k = some st)
    (hst2 : afterGenerations cfg fitness perturbFn shuffle population bestChromosome (k + 1)
      = some st2) :
    ∃ elite : C, getFittest fitness st.population = some elite ∧
      some elite ∈ st2.population ∧ st2.population[0]? = some (some elite) ∧
      st2.population.length = 1 + (cfg.populationSize - 1) ∧
      0 < fitness elite ∧ (∀ d, some d ∈ st.population → fitness d ≤ fitness elite) ∧
      (st.best_score < fitness elite →
        st2.bestChromosome = elite ∧ st2.best_score = fitness elite ∧ st2.delta = 0) ∧
      (¬ st.best_score < fitness elite →
        st2.bestChromosome = st.bestChromosome ∧ st2.best_score = st.best_score ∧
        st2.delta = st.delta + 1) := by
  obtain ⟨st0, hst0, hp, _⟩ :=
    afterGenerations_inv cfg fitness perturbFn shuffle population bestChromosome hpos k
  rw [hst] at hst0
  cases hst0
  obtain ⟨elite, st3, helite, hgen, hlt, hmax, hpop, himp, hkeep⟩ :=
    generation_of_pos cfg fitness (perturbFn k) (shuffle k) st hp
  rw [afterGenerations_succ cfg fitness perturbFn shuffle population bestChromosome k st hst,
    hgen] at hst2
  cases hst2
  refine ⟨elite, helite, ?_, ?_, ?_, hlt, hmax, himp, hkeep⟩
  · rw [hpop]
    exact List.mem_cons_self _ _
  · rw [hpop]
    simp
  · rw [hpop]
    simp
    omega

theorem afterGenerations_mono {C : Type} (cfg : Config) (fitness : C → ℚ)
    (perturbFn : Nat → Nat → C → ℚ → C) (shuffle : Nat → Nat → List Nat)
    (population : List (Option C)) (bestChromosome : C)
    (hpos : ∃ d, some d ∈ population ∧ 0 < fitness d) (j : Nat) :
    ∀ (k : Nat), j ≤ k → ∀ (sj sk : RunState C),
      afterGenerations cfg fitness perturbFn shuffle population bestChromosome j = some sj →
      afterGenerations cfg fitness perturbFn shuffle population bestChromosome k = some sk →
      sj.best_score ≤ sk.best_score ∧
      ∀ d, some d ∈ sj.population → ∃ c, some c ∈ sk.population ∧ fitness d ≤ fitness c := by
  intro k
  induction k with
  | zero =>
    intro hjk sj sk hsj hsk
    have hj0 : j = 0 := by omega
    subst hj0
    rw [hsj] at hsk
    cases hsk
    exact ⟨le_refl _, fun d hd => ⟨d, hd, le_refl _⟩⟩
  | succ k ih =>
    intro hjk sj sk hsj hsk
    by_cases heq : j = k + 1
    · subst heq
      rw [hsj] at hsk
      cases hsk
      exact ⟨le_refl _, fun d hd => ⟨d, hd, le_refl _⟩⟩
    · obtain ⟨st, hst, _⟩ :=
        afterGenerations_inv cfg fitness perturbFn shuffle population bestChromosome hpos k
      obtain ⟨hbest, hpop⟩ := ih (by omega) sj st hsj hst
      obtain ⟨elite, _, hmem, _, _, _, hmax, himp, hkeep⟩ :=
        afterGenerations_step cfg fitness perturbFn shuffle population bestChromosome hpos k
          st sk hst hsk
      refine ⟨?_, ?_⟩
      · by_cases h : st.best_score < fitness elite
        · rw [(himp h).2.1]
          exact le_trans hbest (le_of_lt h)
        · rw [(hkeep h).2.1]
          exact hbest
      · intro d hd
        obtain ⟨c, hc, hdc⟩ := hpop d hd
        exact ⟨elite, hmem, le_trans hdc (hmax c hc)⟩

/-- Every member of a population that a generation evaluated is at most as fit as
the `best_score` of any later state. -/
theorem afterGenerations_bound {C : Type} (cfg : Config) (fitness : C → ℚ)
    (perturbFn : Nat → Nat → C → ℚ → C) (shuffle : Nat → Nat → List Nat)
    (population : List (Option C)) (bestChromosome : C)
    (hpos : ∃ d, some d ∈ population ∧ 0 < fitness d) (j k : Nat) (hjk : j < k)
    (sj sk : RunState C)
    (hsj : afterGenerations cfg fitness perturbFn shuffle population bestChromosome j = some sj)
    (hsk : afterGenerations cfg fitness perturbFn shuffle population bestChromosome k = some sk)
    (d : C) (hd : some d ∈ sj.population) : fitness d ≤ sk.best_score := by
  obtain ⟨s1, hs1, _⟩ :=
    afterGenerations_inv cfg fitness perturbFn shuffle population bestChromosome hpos (j + 1)
  obtain ⟨elite, _, _, _, _, _, hmax, himp, hkeep⟩ :=
    afterGenerations_step cfg fitness perturbFn shuffle population bestChromosome hpos j
      sj s1 hsj hs1
  have h1 : fitness d ≤ s1.best_score := by
    by_cases h : sj.best_score < fitness elite
    · rw [(himp h).2.1]
      exact hmax d hd
    · rw [(hkeep h).2.1]
      exact le_trans (hmax d hd) (not_lt.mp h)
  exact le_trans h1
    (afterGenerations_mono cfg fitness perturbFn shuffle population bestChromosome hpos (j + 1)
      k hjk s1 sk hs1 hsk).1

/-- When the loop of `run` ends, it has run some number `G` of generations: the state
after `G` generations fails the loop condition and every earlier state passed it. -/
theorem runLoop_some {C : Type} (cfg : Config) (fitness : C → ℚ)
    (perturbFn : Nat → Nat → C → ℚ → C) (shuffle : Nat → Nat → List Nat)
    (population : List (Option C)) (bestChromosome : C) :
    ∀ (fuel g : Nat) (st stF : RunState C),
      afterGenerations cfg fitness perturbFn shuffle population bestChromosome g = some st →
      runLoop cfg fitness perturbFn shuffle fuel g st = some stF →
      ∃ G : Nat, g ≤ G ∧
        afterGenerations cfg fitness perturbFn shuffle population bestChromosome G = some stF ∧
        ¬ stF.delta < cfg.iterationsToHalt ∧
        ∀ k, g ≤ k → k < G → ∃ sk : RunState C,
          afterGenerations cfg fitness perturbFn shuffle population bestChromosome k = some sk ∧
          sk.delta < cfg.iterationsToHalt := by
  intro fuel
  induction fuel with
  | zero =>
    intro g st stF hst hrun
    rw [runLoop] at hrun
    by_cases hd : st.delta < cfg.iterationsToHalt
    · rw [if_pos hd] at hrun
      cases hrun
    · rw [if_neg hd] at hrun
      cases hrun
      exact ⟨g, le_refl g, hst, hd, fun k h1 h2 => by omega⟩
  | succ fuel ih =>
    intro g st stF hst hrun
    rw [runLoop] at hrun
    by_cases hd : st.delta < cfg.iterationsToHalt
    · rw [if_pos hd] at hrun
      cases hgen : generation cfg fitness (perturbFn g) (shuffle g) st with
      | none =>
        rw [hgen] at hrun
        cases hrun
      | some st2 =>
        rw [hgen] at hrun
        have hst2 : afterGenerations cfg fitness perturbFn shuffle population bestChromosome
            (g + 1) = some st2 := by
          rw [afterGenerations_succ cfg fitness perturbFn shuffle population bestChromosome g
            st hst]
          exact hgen
        obtain ⟨G, hG, hfin, hstop, hall⟩ := ih (g + 1) st2 stF hst2 hrun
        refine ⟨G, by omega, hfin, hstop, ?_⟩
        intro k h1 h2
        by_cases hk : k = g
        · subst hk
          exact ⟨st, hst, hd⟩
        · exact hall k (by omega) h2
    · rw [if_neg hd] at hrun
      cases hrun
      exact ⟨g, le_refl g, hst, hd, fun k h1 h2 => by omega⟩

/-- C17: for a fitness that is a function of the chromosome, a stagnation window of
at least one generation and an initial population with a member of positive fitness,
whenever `run` ends, in a state reached after some number `G` of generations: the
chromosome `getSolution` returns has fitness equal to the final `best_score` and at
least the fitness of every member of every population a generation evaluated (the
states after fewer than `G` generations, each of which passed the loop condition);
the final `delta` is `iterationsToHalt`, and the last `iterationsToHalt` generations
each raised `delta` by one without changing `best_score`, after a generation (there
is one, as `iterationsToHalt < G`) that reset `delta` to 0. -/
theorem run_returns_best {C : Type} (cfg : Config) (fitness : C → ℚ)
    (perturbFn : Nat → Nat → C → ℚ → C) (shuffle : Nat → Nat → List Nat)
    (population : List (Option C)) (bestChromosome : C) (fuel : Nat) (stF : RunState C)
    (hhalt : 1 ≤ cfg.iterationsToHalt)
    (hpos : ∃ d, some d ∈ population ∧ 0 < fitness d)
    (hrun : run cfg fitness perturbFn shuffle population bestChromosome fuel = some stF) :
    fitness (getSolution stF) = stF.best_score ∧
    ∃ G : Nat,
      afterGenerations cfg fitness perturbFn shuffle population bestChromosome G = some stF ∧
      cfg.iterationsToHalt < G ∧
      (∀ (k : Nat) (st : RunState C), k < G →
        afterGenerations cfg fitness perturbFn shuffle population bestChromosome k = some st →
        st.delta < cfg.iterationsToHalt ∧
        ∀ d, some d ∈ st.population → fitness d ≤ fitness (getSolution stF)) ∧
      stF.delta = cfg.iterationsToHalt ∧
      (∀ j : Nat, j ≤ cfg.iterationsToHalt → ∃ st : RunState C,
        afterGenerations cfg fitness perturbFn shuffle population bestChromosome (G - j)
          = some st ∧
        st.delta = cfg.iterationsToHalt - j ∧ st.best_score = stF.best_score) := by
  obtain ⟨G, _, hfin, hstop, hall⟩ :=
    runLoop_some cfg fitness perturbFn shuffle population bestChromosome fuel 0
      (RunState.init population bestChromosome) stF rfl hrun
  have hG1 : 1 ≤ G := by
    by_contra hG
    have hG0 : G = 0 := by omega
    subst hG0
    rw [afterGenerations] at hfin
    cases hfin
    exact hstop hhalt
  have hgood : 0 < stF.best_score ∧ fitness stF.bestChromosome = stF.best_score := by
    obtain ⟨s, hs, _, _, _, hg⟩ :=
      afterGenerations_inv cfg fitness perturbFn shuffle population bestChromosome hpos G
    rw [hfin] at hs
    cases hs
    exact hg hG1
  have hdelta : stF.delta = cfg.iterationsToHalt := by
    obtain ⟨sk, hsk, hlt⟩ := hall (G - 1) (Nat.zero_le _) (by omega)
    have hfin2 : afterGenerations cfg fitness perturbFn shuffle population bestChromosome
        (G - 1 + 1) = some stF := by
      rw [Nat.sub_add_cancel hG1]
      exact hfin
    obtain ⟨elite, _, _, _, _, _, _, himp, hkeep⟩ :=
      afterGenerations_step cfg fitness perturbFn shuffle population bestChromosome hpos
        (G - 1) sk stF hsk hfin2
    by_cases h : sk.best_score < fitness elite
    · have := (himp h).2.2
      omega
    · have := (hkeep h).2.2
      omega
  have hback : ∀ j : Nat, j ≤ cfg.iterationsToHalt → ∃ st : RunState C,
      afterGenerations cfg fitness perturbFn shuffle population bestChromosome (G - j)
        = some st ∧
      st.delta = cfg.iterationsToHalt - j ∧ st.best_score = stF.best_score := by
    intro j
    induction j with
    | zero =>
      intro _
      exact ⟨stF, hfin, hdelta, rfl⟩
    | succ j ih =>
      intro hj
      obtain ⟨st, hst, hd, hb⟩ := ih (by omega)
      have hpos2 : 1 ≤ G - j := by
        by_contra hcon
        have h0 : G - j = 0 := by omega
        rw [h0, afterGenerations] at hst
        cases hst
        have : (RunState.init population bestChromosome).delta = 0 := rfl
        omega
      obtain ⟨sm, hsm, _⟩ :=
        afterGenerations_inv cfg fitness perturbFn shuffle population bestChromosome hpos
          (G - (j + 1))
      have hst2 : afterGenerations cfg fitness perturbFn shuffle population bestChromosome
          (G - (j + 1) + 1) = some st := by
        have : G - (j + 1) + 1 = G - j := by omega
        rw [this]
        exact hst
      obtain ⟨elite, _, _, _, _, _, _, himp, hkeep⟩ :=
        afterGenerations_step cfg fitness perturbFn shuffle population bestChromosome hpos
          (G - (j + 1)) sm st hsm hst2
      by_cases h : sm.best_score < fitness elite
      · have := (himp h).2.2
        omega
      · obtain ⟨_, h2, h3⟩ := hkeep h
        exact ⟨sm, hsm, by omega, by rw [← h2, hb]⟩
  have hlong : cfg.iterationsToHalt < G := by
    by_contra hcon
    obtain ⟨st, hst, _, hb⟩ := hback cfg.iterationsToHalt (le_refl _)
    have h0 : G - cfg.iterationsToHalt = 0 := by omega
    rw [h0, afterGenerations] at hst
    cases hst
    have hzero : (RunState.init population bestChromosome).best_score = 0 := rfl
    rw [hzero] at hb
    rw [← hb] at hgood
    exact lt_irrefl 0 hgood.1
  refine ⟨hgood.2, G, hfin, hlong, ?_, hdelta, hback⟩
  intro k st hk hst
  obtain ⟨sk, hsk, hlt⟩ := hall k (Nat.zero_le _) hk
  rw [hst] at hsk
  cases hsk
  refine ⟨hlt, ?_⟩
  intro d hd
  have hbound := afterGenerations_bound cfg fitness perturbFn shuffle population bestChromosome
    hpos k G hk st stF hst hfin d hd
  rw [getSolution, hgood.2]
  exact hbound

theorem run_returns_best_witness :
    1 ≤ (Config.mk 1 1 1 0).iterationsToHalt ∧
    (∃ d, some d ∈ ([some 1] : List (Option Nat)) ∧
      0 < (fun c : Nat => if c = 0 then (0 : ℚ) else 1) d) ∧
    run (Config.mk 1 1 1 0) (fun c : Nat => if c = 0 then (0 : ℚ) else 1) (fun _ _ c _ => c)
      (fun _ _ => [0]) [some 1] 0 2 = some (RunState.mk [some 1] 1 1 1) ∧
    ((fun c : Nat => if c = 0 then (0 : ℚ) else 1) (getSolution (RunState.mk [some 1] 1 1 1))
      = (RunState.mk [some 1] (1 : Nat) 1 1).best_score ∧
    ∃ G : Nat,
      afterGenerations (Config.mk 1 1 1 0) (fun c : Nat => if c = 0 then (0 : ℚ) else 1)
        (fun _ _ c _ => c) (fun _ _ => [0]) [some 1] 0 G = some (RunState.mk [some 1] 1 1 1) ∧
      (Config.mk 1 1 1 0).iterationsToHalt < G ∧
      (∀ (k : Nat) (st : RunState Nat), k < G →
        afterGenerations (Config.mk 1 1 1 0) (fun c : Nat => if c = 0 then (0 : ℚ) else 1)
          (fun _ _ c _ => c) (fun _ _ => [0]) [some 1] 0 k = some st →
        st.delta < (Config.mk 1 1 1 0).iterationsToHalt ∧
        ∀ d, some d ∈ st.population → (fun c : Nat => if c = 0 then (0 : ℚ) else 1) d ≤
          (fun c : Nat => if c = 0 then (0 : ℚ) else 1)
            (getSolution (RunState.mk [some 1] 1 1 1))) ∧
      (RunState.mk [some 1] (1 : Nat) 1 1).delta = (Config.mk 1 1 1 0).iterationsToHalt ∧
      (∀ j : Nat, j ≤ (Config.mk 1 1 1 0).iterationsToHalt → ∃ st : RunState Nat,
        afterGenerations (Config.mk 1 1 1 0) (fun c : Nat => if c = 0 then (0 : ℚ) else 1)
          (fun _ _ c _ => c) (fun _ _ => [0]) [some 1] 0 (G - j) = some st ∧
        st.delta = (Config.mk 1 1 1 0).iterationsToHalt - j ∧
        st.best_score = (RunState.mk [some 1] (1 : Nat) 1 1).best_score)) :=
  ⟨le_refl 1, ⟨1, List.mem_cons_self _ _, by norm_num⟩, rfl,
   run_returns_best (Config.mk 1 1 1 0) (fun c : Nat => if c = 0 then (0 : ℚ) else 1)
     (fun _ _ c _ => c) (fun _ _ => [0]) [some 1] 0 2 (RunState.mk [some 1] 1 1 1)
     (le_refl 1) ⟨1, List.mem_cons_self _ _, by norm_num⟩ rfl⟩

/-- C20: for a fitness that is a function of the chromosome and a configuration whose
population has `populationSize` slots: a generation on a population with a member of
positive fitness completes, the new population has `populationSize` slots, its slot
0 is the old population's fittest whatever the perturbation draws are, and every old
member is matched by a new member at least as fit (the new maximum is at least the
old one); hence over the run from such an initial population every later
population matches every member of every earlier one, and every population has a
member at least as fit as `best_score`. -/
theorem elitism {C : Type} (cfg : Config) (fitness : C → ℚ)
    (perturbFn : Nat → Nat → C → ℚ → C) (shuffle : Nat → Nat → List Nat)
    (population : List (Option C)) (bestChromosome : C)
    (hsize : population.length = cfg.populationSize)
    (hpos : ∃ d, some d ∈ population ∧ 0 < fitness d) :
    (∀ (st : RunState C) (pf : Nat → C → ℚ → C) (sh : Nat → List Nat),
      st.population.length = cfg.populationSize →
      (∃ d, some d ∈ st.population ∧ 0 < fitness d) →
      ∃ (elite : C) (st2 : RunState C), getFittest fitness st.population = some elite ∧
        generation cfg fitness pf sh st = some st2 ∧
        st2.population.length = cfg.populationSize ∧
        st2.population[0]? = some (some elite) ∧
        (∀ d, some d ∈ st.population → fitness d ≤ fitness elite) ∧
        (∀ d, some d ∈ st.population → ∃ c, some c ∈ st2.population ∧ fitness d ≤ fitness c)) ∧
    (∀ j k : Nat, j ≤ k → ∃ sj sk : RunState C,
      afterGenerations cfg fitness perturbFn shuffle population bestChromosome j = some sj ∧
      afterGenerations cfg fitness perturbFn shuffle population bestChromosome k = some sk ∧
      sk.population.length = cfg.populationSize ∧
      (∀ d, some d ∈ sj.population → ∃ c, some c ∈ sk.population ∧ fitness d ≤ fitness c) ∧
      (∃ c, some c ∈ sk.population ∧ sk.best_score ≤ fitness c)) := by
  have hsize1 : ∀ l : List (Option C), (∃ d, some d ∈ l ∧ 0 < fitness d) → 1 ≤ l.length := by
    intro l hl
    obtain ⟨d, hd, _⟩ := hl
    exact List.length_pos_of_mem hd
  refine ⟨?_, ?_⟩
  · intro st pf sh hlen hp
    obtain ⟨elite, st2, helite, hgen, _, hmax, hpop, _, _⟩ :=
      generation_of_pos cfg fitness pf sh st hp
    have h1 := hsize1 st.population hp
    refine ⟨elite, st2, helite, hgen, ?_, ?_, hmax, ?_⟩
    · rw [hpop]
      simp
      omega
    · rw [hpop]
      simp
    · intro d hd
      refine ⟨elite, ?_, hmax d hd⟩
      rw [hpop]
      exact List.mem_cons_self _ _
  · intro j k hjk
    obtain ⟨sj, hsj, _⟩ :=
      afterGenerations_inv cfg fitness perturbFn shuffle population bestChromosome hpos j
    obtain ⟨sk, hsk, _, hbest, _, _⟩ :=
      afterGenerations_inv cfg fitness perturbFn shuffle population bestChromosome hpos k
    refine ⟨sj, sk, hsj, hsk, ?_,
      (afterGenerations_mono cfg fitness perturbFn shuffle population bestChromosome hpos j k
        hjk sj sk hsj hsk).2, hbest⟩
    have h1 := hsize1 population hpos
    cases k with
    | zero =>
      rw [afterGenerations] at hsk
      cases hsk
      exact hsize
    | succ k =>
      obtain ⟨sm, hsm, _⟩ :=
        afterGenerations_inv cfg fitness perturbFn shuffle population bestChromosome hpos k
      obtain ⟨_, _, _, _, hlen, _⟩ :=
        afterGenerations_step cfg fitness perturbFn shuffle population bestChromosome hpos k
          sm sk hsm hsk
      omega

theorem elitism_witness :
    ([some 1, some 0] : List (Option Nat)).length = (Config.mk 2 1 1 0).populationSize ∧
    (∃ d, some d ∈ ([some 1, some 0] : List (Option Nat)) ∧
      0 < (fun c : Nat => if c = 0 then (0 : ℚ) else 1) d) ∧
    ((∀ (st : RunState Nat) (pf : Nat → Nat → ℚ → Nat) (sh : Nat → List Nat),
      st.population.length = (Config.mk 2 1 1 0).populationSize →
      (∃ d, some d ∈ st.population ∧ 0 < (fun c : Nat => if c = 0 then (0 : ℚ) else 1) d) →
      ∃ (elite : Nat) (st2 : RunState Nat),
        getFittest (fun c : Nat => if c = 0 then (0 : ℚ) else 1) st.population = some elite ∧
        generation (Config.mk 2 1 1 0) (fun c : Nat => if c = 0 then (0 : ℚ) else 1) pf sh st
          = some st2 ∧
        st2.population.length = (Config.mk 2 1 1 0).populationSize ∧
        st2.population[0]? = some (some elite) ∧
        (∀ d, some d ∈ st.population → (fun c : Nat => if c = 0 then (0 : ℚ) else 1) d ≤
          (fun c : Nat => if c = 0 then (0 : ℚ) else 1) elite) ∧
        (∀ d, some d ∈ st.population → ∃ c, some c ∈ st2.population ∧
          (fun c : Nat => if c = 0 then (0 : ℚ) else 1) d ≤
            (fun c : Nat => if c = 0 then (0 : ℚ) else 1) c)) ∧
    (∀ j k : Nat, j ≤ k → ∃ sj sk : RunState Nat,
      afterGenerations (Config.mk 2 1 1 0) (fun c : Nat => if c = 0 then (0 : ℚ) else 1)
        (fun _ _ c _ => c) (fun _ _ => [1, 0]) [some 1, some 0] 0 j = some sj ∧
      afterGenerations (Config.mk 2 1 1 0) (fun c : Nat => if c = 0 then (0 : ℚ) else 1)
        (fun _ _ c _ => c) (fun _ _ => [1, 0]) [some 1, some 0] 0 k = some sk ∧
      sk.population.length = (Config.mk 2 1 1 0).populationSize ∧
      (∀ d, some d ∈ sj.population → ∃ c, some c ∈ sk.population ∧
        (fun c : Nat => if c = 0 then (0 : ℚ) else 1) d ≤
          (fun c : Nat => if c = 0 then (0 : ℚ) else 1) c) ∧
      (∃ c, some c ∈ sk.population ∧
        sk.best_score ≤ (fun c : Nat => if c = 0 then (0 : ℚ) else 1) c))) :=
  ⟨rfl, ⟨1, List.mem_cons_self _ _, by norm_num⟩,
   elitism (Config.mk 2 1 1 0) (fun c : Nat => if c = 0 then (0 : ℚ) else 1)
     (fun _ _ c _ => c) (fun _ _ => [1, 0]) [some 1, some 0] 0 rfl
     ⟨1, List.mem_cons_self _ _, by norm_num⟩⟩

end WalletDesign
